import Mathlib

/-!
Verification of the Treap-vs-BST comparison repository.

The data model and operations below are a shallow embedding of the Python
sources: `src/Models/models.py` (the `Post` payload and tree `Node`),
`src/Treap/treap.py` (the `Treap` class) and
`src/Binary Search Tree/bst.py` (the `BST` class).

Python's unbounded integers are embedded as `Int`, object identifiers as
`String`.  The instrumentation counters (`rotations_count`, `comparisons`)
that the Python classes keep on `self` are embedded in increment-delta style:
each recursive helper returns, next to its tree result, the number of times
it incremented each counter.  Since the Python code only ever increments the
counters, this is equivalent to threading the mutable state through, and the
class-level methods add the deltas onto the stored counter fields.
-/

/-- `Post` from `models.py`: immutable id and timestamp, mutable score. -/
structure Post where
  post_id : String
  timestamp : Int
  score : Int
deriving DecidableEq

/-- Tree of `Node` objects from `models.py`.  A Python `Node` owns exactly one
`Post`, a `priority` value (initialised to `post.score` by `Node.__init__`)
and optional left/right children; `None` children are the `leaf` constructor.
(`Node` also initialises a `height` field to `1`; nothing in the sources
reads or maintains it, so it is omitted.) -/
inductive Node where
  | leaf : Node
  | node (left : Node) (post : Post) (priority : Int) (right : Node) : Node
deriving DecidableEq

namespace Node

/-- In-order list of the posts stored in a tree. -/
def posts : Node → List Post
  | leaf => []
  | node l x _ r => posts l ++ x :: posts r

/-- Pre-order list of the posts stored in a tree (the order in which the
id searches of `_search_by_id`, `_like_recursive` and `_contains` visit
nodes: node first, then the whole left subtree, then the right subtree). -/
def preo : Node → List Post
  | leaf => []
  | node l x _ r => x :: (preo l ++ preo r)

/-- In-order list of node priorities. -/
def prios : Node → List Int
  | leaf => []
  | node l _ px r => prios l ++ px :: prios r

/-- Number of nodes. -/
def size : Node → Nat
  | leaf => 0
  | node l _ _ r => size l + size r + 1

end Node

open Node

/-- `Node(post)` from `models.py`: a fresh leaf node whose priority is the
post's score. -/
def mkNode (p : Post) : Node := Node.node Node.leaf p p.score Node.leaf

/-- Priority of the root node (never queried on an empty tree by the Python
code; `0` is a junk value for the unreachable case). -/
def rootPrio : Node → Int
  | Node.leaf => 0
  | Node.node _ _ px _ => px

namespace Treap

/-- `Treap._right_rotate`: the left child `x` of `y` becomes the subtree
root, `y` becomes `x`'s right child, and `x`'s former right subtree becomes
`y`'s left subtree.  Every Python call site guarantees a present left child;
on the unreachable shapes the input is returned unchanged.  The
`rotations_count += 1` increment is accounted at each call site. -/
def right_rotate : Node → Node
  | Node.node (Node.node a xp xpx b) yp ypx c =>
      Node.node a xp xpx (Node.node b yp ypx c)
  | t => t

/-- `Treap._left_rotate`, mirror image of `right_rotate`. -/
def left_rotate : Node → Node
  | Node.node a xp xpx (Node.node b yp ypx c) =>
      Node.node (Node.node a xp xpx b) yp ypx c
  | t => t

/-- `Treap._insert_recursive`: BST insert by timestamp (ties to the right),
then on the way back up a rotation whenever the freshly updated child's
priority exceeds the current node's priority.  Returns the new subtree root
together with the `rotations_count` and `comparisons` deltas. -/
def insert_recursive : Node → Post → Node × Nat × Nat
  | Node.leaf, p => (mkNode p, 0, 0)
  | Node.node l x px r, p =>
      if p.timestamp < x.timestamp then
        let res := insert_recursive l p
        let t1 := Node.node res.1 x px r
        if rootPrio res.1 > px then (right_rotate t1, res.2.1 + 1, res.2.2 + 1)
        else (t1, res.2.1, res.2.2 + 1)
      else
        let res := insert_recursive r p
        let t1 := Node.node l x px res.1
        if rootPrio res.1 > px then (left_rotate t1, res.2.1 + 1, res.2.2 + 1)
        else (t1, res.2.1, res.2.2 + 1)

/-- Node produced by `insert_recursive` (counters dropped). -/
def ins (t : Node) (p : Post) : Node := (insert_recursive t p).1

/-- `Treap._like_recursive`: find the first node with the given id (checking
the current node, then the whole left subtree, then the right subtree),
increment its score and its priority together, and repair the heap property
with at most one rotation per level while unwinding.  Returns the subtree
root, the found flag, and the `rotations_count` delta. -/
def like_recursive : Node → String → Node × Bool × Nat
  | Node.leaf, _ => (Node.leaf, false, 0)
  | Node.node l x px r, id =>
      if x.post_id = id then
        (Node.node l { x with score := x.score + 1 } (px + 1) r, true, 0)
      else
        let lres := like_recursive l id
        if lres.2.1 then
          let t1 := Node.node lres.1 x px r
          if rootPrio lres.1 > px then (right_rotate t1, true, lres.2.2 + 1)
          else (t1, true, lres.2.2)
        else
          let rres := like_recursive r id
          if rres.2.1 then
            let t1 := Node.node l x px rres.1
            if rootPrio rres.1 > px then (left_rotate t1, true, rres.2.2 + 1)
            else (t1, true, rres.2.2)
          else (Node.node l x px r, false, lres.2.2 + rres.2.2)

/-- Node produced by `like_recursive`. -/
def lk (t : Node) (id : String) : Node := (like_recursive t id).1

/-- Found flag of `like_recursive`. -/
def lkFound (t : Node) (id : String) : Bool := (like_recursive t id).2.1

/-- `Treap._contains`: does any node of the subtree carry the id? -/
def contains : Node → String → Bool
  | Node.leaf, _ => false
  | Node.node l x _ r, id => x.post_id = id || contains l id || contains r id

/-- `Treap._delete_recursive`: locate the node by id (preferring the current
node, then a left subtree that contains the id, else the right subtree),
then rotate it down towards the higher-priority child until it is a leaf and
drop it.  Returns the new subtree root and the `rotations_count` delta. -/
def delete_recursive : Node → String → Node × Nat
  | Node.leaf, _ => (Node.leaf, 0)
  | Node.node l x px r, id =>
      if x.post_id = id then
        match l, r with
        | Node.leaf, Node.leaf => (Node.leaf, 0)
        | Node.node la lx lpx lb, Node.node ra rx rpx rb =>
            if lpx > rpx then
              let res := delete_recursive
                (Node.node lb x px (Node.node ra rx rpx rb)) id
              (Node.node la lx lpx res.1, res.2 + 1)
            else
              let res := delete_recursive
                (Node.node (Node.node la lx lpx lb) x px ra) id
              (Node.node res.1 rx rpx rb, res.2 + 1)
        | Node.node la lx lpx lb, Node.leaf =>
            let res := delete_recursive (Node.node lb x px Node.leaf) id
            (Node.node la lx lpx res.1, res.2 + 1)
        | Node.leaf, Node.node ra rx rpx rb =>
            let res := delete_recursive (Node.node Node.leaf x px ra) id
            (Node.node res.1 rx rpx rb, res.2 + 1)
      else
        if contains l id then
          let res := delete_recursive l id
          (Node.node res.1 x px r, res.2)
        else
          let res := delete_recursive r id
          (Node.node l x px res.1, res.2)
termination_by t _ => size t
decreasing_by
  all_goals simp [size]; omega

/-- Node produced by `delete_recursive`. -/
def del (t : Node) (id : String) : Node := (delete_recursive t id).1

/-- `Treap.getMostPopular`: the root's post, or `None` on an empty tree. -/
def getMostPopular : Node → Option Post
  | Node.leaf => none
  | Node.node _ x _ _ => some x

/-- `Treap.split`: partition by timestamp threshold, `≤ key` to the left
part, `> key` to the right part, reassigning subtree pointers only.  The
third component is the `rotations_count` delta accumulated during the call
(the method performs no rotation, so only recursive deltas are passed up). -/
def split : Node → Int → Node × Node × Nat
  | Node.leaf, _ => (Node.leaf, Node.leaf, 0)
  | Node.node l x px r, key =>
      if x.timestamp ≤ key then
        let res := split r key
        (Node.node l x px res.1, res.2.1, res.2.2)
      else
        let res := split l key
        (res.1, Node.node res.2.1 x px r, res.2.2)

/-- `Treap._union_recursive`: the higher-priority root becomes the merged
root (ties keep `t1`); the other tree is split by that root's timestamp and
the parts are merged into the children recursively.  Second component is the
`rotations_count` delta (only `split` deltas are passed up). -/
def union_recursive : Node → Node → Node × Nat
  | Node.leaf, t2 => (t2, 0)
  | t1, Node.leaf => (t1, 0)
  | Node.node l1 x1 p1 r1, Node.node l2 x2 p2 r2 =>
      if p1 < p2 then
        let sp := split (Node.node l1 x1 p1 r1) x2.timestamp
        let a := union_recursive l2 sp.1
        let b := union_recursive r2 sp.2.1
        (Node.node a.1 x2 p2 b.1, sp.2.2 + a.2 + b.2)
      else
        let sp := split (Node.node l2 x2 p2 r2) x1.timestamp
        let a := union_recursive l1 sp.1
        let b := union_recursive r1 sp.2.1
        (Node.node a.1 x1 p1 b.1, sp.2.2 + a.2 + b.2)
termination_by t1 t2 => size t1 + size t2
decreasing_by
  all_goals
    have key : ∀ (t : Node) (k : Int),
        size (split t k).1 + size (split t k).2.1 = size t := by
      intro t k
      induction t with
      | leaf => simp [split, size]
      | node l x px r ihl ihr =>
          by_cases h : x.timestamp ≤ k <;> simp [split, h, size] <;> omega
  case _ =>
    have h2 := key (Node.node l1 x1 p1 r1) x2.timestamp
    simp [size] at h2 ⊢; omega
  case _ =>
    have h2 := key (Node.node l1 x1 p1 r1) x2.timestamp
    simp [size] at h2 ⊢; omega
  case _ =>
    have h2 := key (Node.node l2 x2 p2 r2) x1.timestamp
    simp [size] at h2 ⊢; omega
  case _ =>
    have h2 := key (Node.node l2 x2 p2 r2) x1.timestamp
    simp [size] at h2 ⊢; omega

/-- Tree produced by `union_recursive`. -/
def unionT (t1 t2 : Node) : Node := (union_recursive t1 t2).1

end Treap

/-- The `Treap` class state: root plus the two performance counters. -/
structure Treap where
  root : Node
  rotations_count : Nat
  comparisons : Nat
deriving DecidableEq

namespace Treap

/-- A freshly constructed `Treap()`. -/
def empty : Treap := ⟨Node.leaf, 0, 0⟩

/-- `Treap.addPost`: build the `Post` and insert it. -/
def addPost (self : Treap) (post_id : String) (timestamp score : Int) : Treap :=
  let res := insert_recursive self.root ⟨post_id, timestamp, score⟩
  { root := res.1,
    rotations_count := self.rotations_count + res.2.1,
    comparisons := self.comparisons + res.2.2 }

/-- `Treap.likePost`: update the root and return the found flag. -/
def likePost (self : Treap) (post_id : String) : Treap × Bool :=
  let res := like_recursive self.root post_id
  let self' : Treap :=
    { self with root := res.1
                rotations_count := self.rotations_count + res.2.2 }
  (self', res.2.1)

/-- `Treap.deletePost`.  The Python method has no `return` statement, so its
value is `None`; the method's return channel is embedded as `Option Bool`
(`some b` for a returned boolean, `none` for Python's `None`). -/
def deletePost (self : Treap) (post_id : String) : Treap × Option Bool :=
  let res := delete_recursive self.root post_id
  let self' : Treap :=
    { self with root := res.1
                rotations_count := self.rotations_count + res.2 }
  (self', none)

/-- `Treap.union`: no-op if the donor has no root; otherwise merge the donor
root into the receiver and fold the donor's `rotations_count` (and only that
counter) additively into the receiver's. -/
def union (self other : Treap) : Treap :=
  if other.root = Node.leaf then self
  else
    let res := union_recursive self.root other.root
    { root := res.1,
      rotations_count := self.rotations_count + res.2 + other.rotations_count,
      comparisons := self.comparisons }

end Treap

namespace BST

/-- `BST._insert_recursive` plus the empty-root case of `BST.addPost`: plain
BST insert by timestamp (ties to the right), no rebalancing.  The Python
code attaches the new leaf from the parent (checking `node.left is None`)
rather than recursing into the empty slot; the tree produced and the number
of `comparisons` increments (one per existing node visited) are identical,
so the empty slot is folded into the base case.  Second component is the
`comparisons` delta. -/
def insert_recursive : Node → Post → Node × Nat
  | Node.leaf, p => (mkNode p, 0)
  | Node.node l x px r, p =>
      if p.timestamp < x.timestamp then
        let res := insert_recursive l p
        (Node.node res.1 x px r, res.2 + 1)
      else
        let res := insert_recursive r p
        (Node.node l x px res.1, res.2 + 1)

/-- Tree produced by `BST.addPost`. -/
def insT (t : Node) (p : Post) : Node := (insert_recursive t p).1

/-- `BST.likePost` combined with `BST._search_by_id`: the search visits the
current node, then the whole left subtree, then the right subtree, and the
first node carrying the id gets its `post.score` incremented in place (the
stale `priority` field is *not* updated — the BST never reads it).  Returns
the updated tree and the found flag that `likePost` returns. -/
def likeT : Node → String → Node × Bool
  | Node.leaf, _ => (Node.leaf, false)
  | Node.node l x px r, id =>
      if x.post_id = id then
        (Node.node l { x with score := x.score + 1 } px r, true)
      else
        let lres := likeT l id
        if lres.2 then (Node.node lres.1 x px r, true)
        else
          let rres := likeT r id
          (Node.node l x px rres.1, rres.2)

/-- `BST._get_min_node`: post and priority of the leftmost node (junk on the
empty tree, which the Python caller never passes). -/
def get_min_node : Node → Post × Int
  | Node.leaf => (⟨"", 0, 0⟩, 0)
  | Node.node Node.leaf x px _ => (x, px)
  | Node.node (Node.node a y py b) _ _ _ => get_min_node (Node.node a y py b)

/-- `BST._delete_recursive_by_obj` applied to the in-order successor: the
target object is the leftmost node of the subtree (found by `_get_min_node`),
and the helper walks the left spine comparing object identity, so its effect
is exactly the removal of the leftmost node (replaced by its right child). -/
def delete_by_obj : Node → Node
  | Node.leaf => Node.leaf
  | Node.node Node.leaf _ _ r => r
  | Node.node (Node.node a y py b) x px r =>
      Node.node (delete_by_obj (Node.node a y py b)) x px r

/-- `BST._delete_recursive`: when the current node carries the id, splice it
out (leaf: drop; one child: lift the child; two children: overwrite post and
priority with the in-order successor's and remove the successor's node);
otherwise recurse into *both* children. -/
def delete_recursive : Node → String → Node
  | Node.leaf, _ => Node.leaf
  | Node.node l x px r, id =>
      if x.post_id = id then
        match l, r with
        | Node.leaf, r => r
        | l, Node.leaf => l
        | Node.node la ly py lb, Node.node ra ry ry' rb =>
            let m := get_min_node (Node.node ra ry ry' rb)
            Node.node (Node.node la ly py lb) m.1 m.2
              (delete_by_obj (Node.node ra ry ry' rb))
      else
        Node.node (delete_recursive l id) x px (delete_recursive r id)

/-- `BST.getMostRecent` via `BST._reverse_inorder`: reverse in-order
traversal (right, node, left) appending to `results` until `k` posts are
collected. -/
def reverse_inorder : Node → Nat → List Post → List Post
  | Node.leaf, _, results => results
  | Node.node l x _ r, k, results =>
      if results.length ≥ k then results
      else
        let res1 := reverse_inorder r k results
        let res2 := if res1.length < k then res1 ++ [x] else res1
        reverse_inorder l k res2

/-- `BST.getMostRecent`. -/
def getMostRecent (t : Node) (k : Nat) : List Post := reverse_inorder t k []

end BST

/-- The `BST` class state: root plus the comparison counter (the unused
`operations_count` field is never incremented or read and is omitted). -/
structure BSTree where
  root : Node
  comparisons : Nat
deriving DecidableEq

namespace BSTree

/-- A freshly constructed `BST()`. -/
def empty : BSTree := ⟨Node.leaf, 0⟩

/-- `BST.addPost`. -/
def addPost (self : BSTree) (post_id : String) (timestamp score : Int) :
    BSTree :=
  let res := BST.insert_recursive self.root ⟨post_id, timestamp, score⟩
  { root := res.1, comparisons := self.comparisons + res.2 }

/-- `BST.likePost` (returns the found flag). -/
def likePost (self : BSTree) (post_id : String) : BSTree × Bool :=
  let res := BST.likeT self.root post_id
  ({ self with root := res.1 }, res.2)

/-- `BST.deletePost`.  As with `Treap.deletePost` the Python method has no
`return` statement, so its return channel (embedded as `Option Bool`) is
`none`. -/
def deletePost (self : BSTree) (post_id : String) : BSTree × Option Bool :=
  ({ self with root := BST.delete_recursive self.root post_id }, none)

end BSTree

/-- Modelled from the spec: `get_structural_metrics`, imported by
`partitionMain.py` from `src.Utility.utils` but absent from the repository's
`utils.py`.  Per spec §4.4: a single bottom-up pass returning
`(height, totalAbsoluteBalanceFactor, nodeCount)`; an empty subtree yields
`(0, 0, 0)`; a node combines its children's triples with
`height = 1 + max(leftHeight, rightHeight)`,
`balanceFactor = |leftHeight - rightHeight|`, and accumulates the sums. -/
def get_structural_metrics : Node → Nat × Nat × Nat
  | Node.leaf => (0, 0, 0)
  | Node.node l _ _ r =>
      let lm := get_structural_metrics l
      let rm := get_structural_metrics r
      (1 + max lm.1 rm.1,
       lm.2.1 + rm.2.1 + (max lm.1 rm.1 - min lm.1 rm.1),
       lm.2.2 + rm.2.2 + 1)

/-- All root-to-leaf paths of a tree, each listed as the posts from the root
down (used as the independent specification of height: the longest
root-to-leaf path, measured in nodes). -/
def rootToLeafPaths : Node → List (List Post)
  | Node.leaf => [[]]
  | Node.node l x _ r =>
      ((rootToLeafPaths l).map (x :: ·)) ++ ((rootToLeafPaths r).map (x :: ·))

/-- A sequence of the three mutating `Treap` feed operations. -/
inductive Op where
  | add (post_id : String) (timestamp score : Int)
  | like (post_id : String)
  | del (post_id : String)

/-- Apply one operation to a treap root. -/
def applyOp (t : Node) : Op → Node
  | Op.add id ts sc => Treap.ins t ⟨id, ts, sc⟩
  | Op.like id => Treap.lk t id
  | Op.del id => Treap.del t id

/-- Run a sequence of operations on an initially empty treap. -/
def runOps (ops : List Op) : Node := ops.foldl applyOp Node.leaf

/-- The spec's heap invariant at the interface between a parent of priority
`b` and a child subtree: trivially true for an absent child. -/
def rootPrioLE : Node → Int → Prop
  | Node.leaf, _ => True
  | Node.node _ _ px _, b => px ≤ b

/-- Max-heap invariant: every node's priority is `≥` each existing child's
priority. -/
def Heap : Node → Prop
  | Node.leaf => True
  | Node.node l _ px r => rootPrioLE l px ∧ rootPrioLE r px ∧ Heap l ∧ Heap r

/-- Invariant P1: every node's `priority` equals its post's `score`. -/
def P1 : Node → Prop
  | Node.leaf => True
  | Node.node l x px r => px = x.score ∧ P1 l ∧ P1 r

/-- The spec's strict BST order invariant: left subtree strictly below the
node's timestamp, right subtree at or above it (ties to the right). -/
def SBST : Node → Prop
  | Node.leaf => True
  | Node.node l x _ r =>
      (∀ p ∈ posts l, p.timestamp < x.timestamp) ∧
      (∀ p ∈ posts r, x.timestamp ≤ p.timestamp) ∧ SBST l ∧ SBST r

/-- The weak BST order invariant: left subtree at or below the node's
timestamp, right subtree at or above it.  It is what survives `union`, and
it already forces the in-order traversal to be non-decreasing. -/
def WBST : Node → Prop
  | Node.leaf => True
  | Node.node l x _ r =>
      (∀ p ∈ posts l, p.timestamp ≤ x.timestamp) ∧
      (∀ p ∈ posts r, x.timestamp ≤ p.timestamp) ∧ WBST l ∧ WBST r

/-- All priorities in the tree are bounded by `b`. -/
def UB (t : Node) (b : Int) : Prop := ∀ q ∈ prios t, q ≤ b

/-- Upper bound on the priorities of every non-root node. -/
def nonRootUB : Node → Int → Prop
  | Node.leaf, _ => True
  | Node.node l _ _ r, b => UB l b ∧ UB r b

/-- `rootPrioLE` is decidable. -/
def rootPrioLE.dec : (t : Node) → (b : Int) → Decidable (rootPrioLE t b)
  | Node.leaf, _ => Decidable.isTrue trivial
  | Node.node _ _ px _, b => decidable_of_iff (px ≤ b) Iff.rfl

instance : ∀ t b, Decidable (rootPrioLE t b) := rootPrioLE.dec

def Heap.dec : (t : Node) → Decidable (Heap t)
  | Node.leaf => Decidable.isTrue trivial
  | Node.node l x px r =>
      letI := Heap.dec l
      letI := Heap.dec r
      decidable_of_iff
        (rootPrioLE l px ∧ rootPrioLE r px ∧ Heap l ∧ Heap r) Iff.rfl

instance : ∀ t, Decidable (Heap t) := Heap.dec

def P1.dec : (t : Node) → Decidable (P1 t)
  | Node.leaf => Decidable.isTrue trivial
  | Node.node l x px r =>
      letI := P1.dec l
      letI := P1.dec r
      decidable_of_iff (px = x.score ∧ P1 l ∧ P1 r) Iff.rfl

instance : ∀ t, Decidable (P1 t) := P1.dec

def SBST.dec : (t : Node) → Decidable (SBST t)
  | Node.leaf => Decidable.isTrue trivial
  | Node.node l x px r =>
      letI := SBST.dec l
      letI := SBST.dec r
      decidable_of_iff
        ((∀ p ∈ posts l, p.timestamp < x.timestamp) ∧
         (∀ p ∈ posts r, x.timestamp ≤ p.timestamp) ∧ SBST l ∧ SBST r) Iff.rfl

instance : ∀ t, Decidable (SBST t) := SBST.dec

def WBST.dec : (t : Node) → Decidable (WBST t)
  | Node.leaf => Decidable.isTrue trivial
  | Node.node l x px r =>
      letI := WBST.dec l
      letI := WBST.dec r
      decidable_of_iff
        ((∀ p ∈ posts l, p.timestamp ≤ x.timestamp) ∧
         (∀ p ∈ posts r, x.timestamp ≤ p.timestamp) ∧ WBST l ∧ WBST r) Iff.rfl

instance : ∀ t, Decidable (WBST t) := WBST.dec

/-- Bump the score of the first post in the list carrying the id. -/
def bump1 : List Post → String → List Post
  | [], _ => []
  | p :: ps, id =>
      if p.post_id = id then { p with score := p.score + 1 } :: ps
      else p :: bump1 ps id

/-- Remove the first post in the list carrying the id. -/
def removeFirst : List Post → String → List Post
  | [], _ => []
  | p :: ps, id => if p.post_id = id then ps else p :: removeFirst ps id

/-! ### Basic structural lemmas -/

theorem posts_right_rotate : ∀ t, posts (Treap.right_rotate t) = posts t
  | Node.leaf => rfl
  | Node.node Node.leaf _ _ _ => rfl
  | Node.node (Node.node _ _ _ _) _ _ _ => by
      simp [Treap.right_rotate, posts]

theorem posts_left_rotate : ∀ t, posts (Treap.left_rotate t) = posts t
  | Node.leaf => rfl
  | Node.node _ _ _ Node.leaf => by
      unfold Treap.left_rotate; rfl
  | Node.node _ _ _ (Node.node _ _ _ _) => by
      simp [Treap.left_rotate, posts]

theorem prios_right_rotate : ∀ t, prios (Treap.right_rotate t) = prios t
  | Node.leaf => rfl
  | Node.node Node.leaf _ _ _ => rfl
  | Node.node (Node.node _ _ _ _) _ _ _ => by
      simp [Treap.right_rotate, prios]

theorem prios_left_rotate : ∀ t, prios (Treap.left_rotate t) = prios t
  | Node.leaf => rfl
  | Node.node _ _ _ Node.leaf => by
      unfold Treap.left_rotate; rfl
  | Node.node _ _ _ (Node.node _ _ _ _) => by
      simp [Treap.left_rotate, prios]

theorem preo_perm_posts : ∀ t : Node, List.Perm (preo t) (posts t)
  | Node.leaf => List.Perm.refl _
  | Node.node l x _ r => by
      simp only [preo, posts]
      exact List.Perm.trans
        (List.Perm.cons x ((preo_perm_posts l).append (preo_perm_posts r)))
        (List.perm_middle).symm

theorem length_posts_eq_size : ∀ t : Node, (posts t).length = size t
  | Node.leaf => rfl
  | Node.node l _ _ r => by
      simp [posts, size, length_posts_eq_size l, length_posts_eq_size r]
      omega

@[simp] theorem Heap_leaf : Heap Node.leaf := trivial

@[simp] theorem Heap_node {l r : Node} {x : Post} {px : Int} :
    Heap (Node.node l x px r) ↔
      rootPrioLE l px ∧ rootPrioLE r px ∧ Heap l ∧ Heap r := Iff.rfl

@[simp] theorem P1_leaf : P1 Node.leaf := trivial

@[simp] theorem P1_node {l r : Node} {x : Post} {px : Int} :
    P1 (Node.node l x px r) ↔ px = x.score ∧ P1 l ∧ P1 r := Iff.rfl

@[simp] theorem SBST_leaf : SBST Node.leaf := trivial

@[simp] theorem SBST_node {l r : Node} {x : Post} {px : Int} :
    SBST (Node.node l x px r) ↔
      (∀ p ∈ posts l, p.timestamp < x.timestamp) ∧
      (∀ p ∈ posts r, x.timestamp ≤ p.timestamp) ∧ SBST l ∧ SBST r := Iff.rfl

@[simp] theorem WBST_leaf : WBST Node.leaf := trivial

@[simp] theorem WBST_node {l r : Node} {x : Post} {px : Int} :
    WBST (Node.node l x px r) ↔
      (∀ p ∈ posts l, p.timestamp ≤ x.timestamp) ∧
      (∀ p ∈ posts r, x.timestamp ≤ p.timestamp) ∧ WBST l ∧ WBST r := Iff.rfl

@[simp] theorem rootPrioLE_leaf {b : Int} : rootPrioLE Node.leaf b := trivial

@[simp] theorem rootPrioLE_node {l r : Node} {x : Post} {px b : Int} :
    rootPrioLE (Node.node l x px r) b ↔ px ≤ b := Iff.rfl

@[simp] theorem UB_leaf {b : Int} : UB Node.leaf b := by simp [UB, prios]

@[simp] theorem UB_node {l r : Node} {x : Post} {px b : Int} :
    UB (Node.node l x px r) b ↔ UB l b ∧ px ≤ b ∧ UB r b := by
  simp [UB, prios, or_imp, forall_and]

/-- The root's priority is bounded by any priority bound of the tree. -/
theorem UB.rootPrioLE {t : Node} {b : Int} (h : UB t b) : rootPrioLE t b := by
  cases t with
  | leaf => trivial
  | node l x px r => simp at h ⊢; exact h.2.1

/-- A heap whose root priority is bounded has all priorities bounded. -/
theorem Heap.toUB : ∀ {t : Node} {b : Int}, Heap t → rootPrioLE t b → UB t b
  | Node.leaf, _, _, _ => by simp
  | Node.node l x px r, b, h, hb => by
      simp only [rootPrioLE_node] at hb
      obtain ⟨hl, hr, Hl, Hr⟩ := (Heap_node).mp h
      refine UB_node.mpr ⟨Heap.toUB Hl ?_, hb, Heap.toUB Hr ?_⟩
      · cases l with
        | leaf => trivial
        | node a q qp c => simp only [rootPrioLE_node] at hl ⊢; omega
      · cases r with
        | leaf => trivial
        | node a q qp c => simp only [rootPrioLE_node] at hr ⊢; omega

/-- Weaken a priority bound. -/
theorem UB_mono {t : Node} {b c : Int} (h : UB t b) (hbc : b ≤ c) : UB t c :=
  fun q hq => le_trans (h q hq) hbc

theorem posts_ins_perm (p : Post) :
    ∀ t, (↑(posts (Treap.ins t p)) : Multiset Post) = p ::ₘ ↑(posts t)
  | Node.leaf => by simp [Treap.ins, Treap.insert_recursive, mkNode, posts]
  | Node.node l x px r => by
      unfold Treap.ins Treap.insert_recursive
      by_cases hts : p.timestamp < x.timestamp
      · have ih := posts_ins_perm p l
        simp only [hts, if_true]
        by_cases hrot : rootPrio (Treap.insert_recursive l p).1 > px <;>
          simp only [hrot, if_true, if_false, posts_right_rotate, posts,
            ← Multiset.coe_add, ← Multiset.cons_coe] <;>
        · rw [show posts (Treap.insert_recursive l p).1
              = posts (Treap.ins l p) from rfl, ih]
          simp [Multiset.cons_add]
      · have ih := posts_ins_perm p r
        simp only [hts, if_false]
        by_cases hrot : rootPrio (Treap.insert_recursive r p).1 > px <;>
          simp only [hrot, if_true, if_false, posts_left_rotate, posts,
            ← Multiset.coe_add, ← Multiset.cons_coe] <;>
        · rw [show posts (Treap.insert_recursive r p).1
              = posts (Treap.ins r p) from rfl, ih]
          simp only [Multiset.cons_add, Multiset.add_cons, Multiset.cons_coe,
            Multiset.coe_eq_coe]
          exact (by simpa using @List.perm_middle _ p (posts l ++ [x]) (posts r))

theorem prios_ins_perm (p : Post) :
    ∀ t, (↑(prios (Treap.ins t p)) : Multiset Int) = p.score ::ₘ ↑(prios t)
  | Node.leaf => by simp [Treap.ins, Treap.insert_recursive, mkNode, prios]
  | Node.node l x px r => by
      unfold Treap.ins Treap.insert_recursive
      by_cases hts : p.timestamp < x.timestamp
      · have ih := prios_ins_perm p l
        simp only [hts, if_true]
        by_cases hrot : rootPrio (Treap.insert_recursive l p).1 > px <;>
          simp only [hrot, if_true, if_false, prios_right_rotate, prios,
            ← Multiset.coe_add, ← Multiset.cons_coe] <;>
        · rw [show prios (Treap.insert_recursive l p).1
              = prios (Treap.ins l p) from rfl, ih]
          simp [Multiset.cons_add]
      · have ih := prios_ins_perm p r
        simp only [hts, if_false]
        by_cases hrot : rootPrio (Treap.insert_recursive r p).1 > px <;>
          simp only [hrot, if_true, if_false, prios_left_rotate, prios,
            ← Multiset.coe_add, ← Multiset.cons_coe] <;>
        · rw [show prios (Treap.insert_recursive r p).1
              = prios (Treap.ins r p) from rfl, ih]
          simp only [Multiset.cons_add, Multiset.add_cons, Multiset.cons_coe,
            Multiset.coe_eq_coe]
          exact (by simpa using
            @List.perm_middle _ p.score (prios l ++ [px]) (prios r))

/-- The root priority is one of the tree's priorities. -/
theorem rootPrio_mem_prios {l r : Node} {x : Post} {px : Int} :
    px ∈ prios (Node.node l x px r) := by
  simp [prios]

/-- Membership version of `prios_ins_perm`. -/
theorem mem_prios_ins {q : Int} {t : Node} {p : Post}
    (h : q ∈ prios (Treap.ins t p)) : q = p.score ∨ q ∈ prios t := by
  have := prios_ins_perm p t
  have hmem : q ∈ (↑(prios (Treap.ins t p)) : Multiset Int) := by
    simpa using h
  rw [this] at hmem
  simpa using hmem

/-- Insertion preserves the heap invariant. -/
theorem ins_heap (p : Post) : ∀ t, Heap t → Heap (Treap.ins t p)
  | Node.leaf, _ => by simp [Treap.ins, Treap.insert_recursive, mkNode]
  | Node.node l x px r, h => by
      obtain ⟨hl, hr, Hl, Hr⟩ := Heap_node.mp h
      have IHl := ins_heap p l Hl
      have IHr := ins_heap p r Hr
      unfold Treap.ins Treap.insert_recursive
      by_cases hts : p.timestamp < x.timestamp
      · simp only [hts, if_true]
        by_cases hrot : rootPrio (Treap.insert_recursive l p).1 > px
        · simp only [hrot, if_true]
          rcases hl' : (Treap.insert_recursive l p).1 with _ | ⟨la, lx, lpx, lb⟩
          · simp [Treap.right_rotate, hr, Hr]
          · have hl'' : Treap.ins l p = Node.node la lx lpx lb := hl'
            rw [hl'] at hrot
            simp only [rootPrio] at hrot
            obtain ⟨hla, hlb, Hla, Hlb⟩ := Heap_node.mp (hl'' ▸ IHl)
            have hUBl : UB l px := Heap.toUB Hl hl
            have hchild : (↑(prios la) + ↑(prios lb) : Multiset Int)
                = ↑(prios l) := by
              have hp := prios_ins_perm p l
              rw [hl''] at hp
              simp only [prios, ← Multiset.coe_add, ← Multiset.cons_coe,
                Multiset.add_cons] at hp
              have hlpx : lpx = p.score := by
                rcases mem_prios_ins (q := lpx) (hl'' ▸ rootPrio_mem_prios) with
                  heq | hmem
                · exact heq
                · exact absurd (hUBl lpx hmem) (not_le.mpr hrot)
              rw [hlpx] at hp
              exact (Multiset.cons_inj_right _).mp hp
            have hUBchild : ∀ q ∈ prios lb, q ≤ px := by
              intro q hq
              have : q ∈ (↑(prios l) : Multiset Int) := by
                rw [← hchild]; simp [hq]
              exact hUBl q (by simpa using this)
            simp only [Treap.right_rotate, Heap_node]
            refine ⟨hla, by simp only [rootPrioLE_node]; omega, Hla,
              ?_, hr, Hlb, Hr⟩
            cases lb with
            | leaf => trivial
            | node a q qp c =>
                simp only [rootPrioLE_node]
                exact hUBchild qp rootPrio_mem_prios
        · simp only [hrot, if_false, Heap_node]
          refine ⟨?_, hr, IHl, Hr⟩
          rcases hl' : (Treap.insert_recursive l p).1 with _ | ⟨la, lx, lpx, lb⟩
          · trivial
          · rw [hl'] at hrot
            simp only [rootPrio] at hrot
            simp only [rootPrioLE_node]
            omega
      · simp only [hts, if_false]
        by_cases hrot : rootPrio (Treap.insert_recursive r p).1 > px
        · simp only [hrot, if_true]
          rcases hr' : (Treap.insert_recursive r p).1 with _ | ⟨ra, rx, rpx, rb⟩
          · simp [Treap.left_rotate, hl, Hl]
          · have hr'' : Treap.ins r p = Node.node ra rx rpx rb := hr'
            rw [hr'] at hrot
            simp only [rootPrio] at hrot
            obtain ⟨hra, hrb, Hra, Hrb⟩ := Heap_node.mp (hr'' ▸ IHr)
            have hUBr : UB r px := Heap.toUB Hr hr
            have hchild : (↑(prios ra) + ↑(prios rb) : Multiset Int)
                = ↑(prios r) := by
              have hp := prios_ins_perm p r
              rw [hr''] at hp
              simp only [prios, ← Multiset.coe_add, ← Multiset.cons_coe,
                Multiset.add_cons] at hp
              have hrpx : rpx = p.score := by
                rcases mem_prios_ins (q := rpx) (hr'' ▸ rootPrio_mem_prios) with
                  heq | hmem
                · exact heq
                · exact absurd (hUBr rpx hmem) (not_le.mpr hrot)
              rw [hrpx] at hp
              exact (Multiset.cons_inj_right _).mp hp
            have hUBchild : ∀ q ∈ prios ra, q ≤ px := by
              intro q hq
              have : q ∈ (↑(prios r) : Multiset Int) := by
                rw [← hchild]; simp [hq]
              exact hUBr q (by simpa using this)
            simp only [Treap.left_rotate, Heap_node]
            refine ⟨by simp only [rootPrioLE_node]; omega, hrb,
              ⟨hl, ?_, Hl, Hra⟩, Hrb⟩
            cases ra with
            | leaf => trivial
            | node a q qp c =>
                simp only [rootPrioLE_node]
                exact hUBchild qp rootPrio_mem_prios
        · simp only [hrot, if_false, Heap_node]
          refine ⟨hl, ?_, Hl, IHr⟩
          rcases hr' : (Treap.insert_recursive r p).1 with _ | ⟨ra, rx, rpx, rb⟩
          · trivial
          · rw [hr'] at hrot
            simp only [rootPrio] at hrot
            simp only [rootPrioLE_node]
            omega

theorem P1_right_rotate : ∀ {t : Node}, P1 t → P1 (Treap.right_rotate t)
  | Node.leaf, h => h
  | Node.node Node.leaf _ _ _, h => h
  | Node.node (Node.node _ _ _ _) _ _ _, h => by
      simp only [Treap.right_rotate, P1_node] at h ⊢
      tauto

theorem P1_left_rotate : ∀ {t : Node}, P1 t → P1 (Treap.left_rotate t)
  | Node.leaf, h => h
  | Node.node _ _ _ Node.leaf, h => by
      unfold Treap.left_rotate; exact h
  | Node.node _ _ _ (Node.node _ _ _ _), h => by
      simp only [Treap.left_rotate, P1_node] at h ⊢
      tauto

/-- Insertion preserves P1 (the new node's priority is its score). -/
theorem ins_P1 (p : Post) : ∀ t, P1 t → P1 (Treap.ins t p)
  | Node.leaf, _ => by simp [Treap.ins, Treap.insert_recursive, mkNode]
  | Node.node l x px r, h => by
      obtain ⟨hx, Pl, Pr⟩ := P1_node.mp h
      unfold Treap.ins Treap.insert_recursive
      by_cases hts : p.timestamp < x.timestamp
      · have ih := ins_P1 p l Pl
        simp only [hts, if_true]
        by_cases hrot : rootPrio (Treap.insert_recursive l p).1 > px <;>
          simp only [hrot, if_true, if_false]
        · exact P1_right_rotate (P1_node.mpr ⟨hx, ih, Pr⟩)
        · exact P1_node.mpr ⟨hx, ih, Pr⟩
      · have ih := ins_P1 p r Pr
        simp only [hts, if_false]
        by_cases hrot : rootPrio (Treap.insert_recursive r p).1 > px <;>
          simp only [hrot, if_true, if_false]
        · exact P1_left_rotate (P1_node.mpr ⟨hx, Pl, ih⟩)
        · exact P1_node.mpr ⟨hx, Pl, ih⟩

theorem WBST_right_rotate : ∀ {t : Node}, WBST t → WBST (Treap.right_rotate t)
  | Node.leaf, h => h
  | Node.node Node.leaf _ _ _, h => h
  | Node.node (Node.node a y py b) x px c, h => by
      obtain ⟨hlx, hrx, hw, Wc⟩ := WBST_node.mp h
      obtain ⟨hay, hyb, Wa, Wb⟩ := WBST_node.mp hw
      have hyx : y.timestamp ≤ x.timestamp := hlx y (by simp [posts])
      simp only [Treap.right_rotate, WBST_node]
      refine ⟨hay, ?_, Wa, ?_, hrx, Wb, Wc⟩
      · intro q hq
        simp only [posts, List.mem_append, List.mem_cons] at hq
        rcases hq with hq | hq | hq
        · exact hyb q hq
        · exact hq ▸ hyx
        · exact le_trans hyx (hrx q hq)
      · intro q hq
        exact hlx q (by simp [posts, hq])

theorem WBST_left_rotate : ∀ {t : Node}, WBST t → WBST (Treap.left_rotate t)
  | Node.leaf, h => h
  | Node.node _ _ _ Node.leaf, h => by
      unfold Treap.left_rotate; exact h
  | Node.node a x px (Node.node b y py c), h => by
      obtain ⟨hlx, hrx, Wa, hw⟩ := WBST_node.mp h
      obtain ⟨hby, hyc, Wb, Wc⟩ := WBST_node.mp hw
      have hxy : x.timestamp ≤ y.timestamp := hrx y (by simp [posts])
      simp only [Treap.left_rotate, WBST_node]
      refine ⟨?_, hyc, ⟨hlx, ?_, Wa, Wb⟩, Wc⟩
      · intro q hq
        simp only [posts, List.mem_append, List.mem_cons] at hq
        rcases hq with hq | hq | hq
        · exact le_trans (hlx q hq) hxy
        · exact hq ▸ hxy
        · exact hby q hq
      · intro q hq
        exact hrx q (by simp [posts, hq])

/-- Membership version of `posts_ins_perm`. -/
theorem mem_posts_ins {q : Post} {t : Node} {p : Post}
    (h : q ∈ posts (Treap.ins t p)) : q = p ∨ q ∈ posts t := by
  have := posts_ins_perm p t
  have hmem : q ∈ (↑(posts (Treap.ins t p)) : Multiset Post) := by
    simpa using h
  rw [this] at hmem
  simpa using hmem

/-- Insertion preserves the weak BST order invariant. -/
theorem ins_WBST (p : Post) : ∀ t, WBST t → WBST (Treap.ins t p)
  | Node.leaf, _ => by simp [Treap.ins, Treap.insert_recursive, mkNode, posts]
  | Node.node l x px r, h => by
      obtain ⟨hlx, hrx, Wl, Wr⟩ := WBST_node.mp h
      unfold Treap.ins Treap.insert_recursive
      by_cases hts : p.timestamp < x.timestamp
      · have ih := ins_WBST p l Wl
        have hbnd : ∀ q ∈ posts (Treap.ins l p), q.timestamp ≤ x.timestamp := by
          intro q hq
          rcases mem_posts_ins hq with hq | hq
          · exact hq ▸ le_of_lt hts
          · exact hlx q hq
        simp only [hts, if_true]
        by_cases hrot : rootPrio (Treap.insert_recursive l p).1 > px <;>
          simp only [hrot, if_true, if_false]
        · exact WBST_right_rotate (WBST_node.mpr ⟨hbnd, hrx, ih, Wr⟩)
        · exact WBST_node.mpr ⟨hbnd, hrx, ih, Wr⟩
      · have ih := ins_WBST p r Wr
        have hbnd : ∀ q ∈ posts (Treap.ins r p), x.timestamp ≤ q.timestamp := by
          intro q hq
          rcases mem_posts_ins hq with hq | hq
          · exact hq ▸ le_of_not_lt hts
          · exact hrx q hq
        simp only [hts, if_false]
        by_cases hrot : rootPrio (Treap.insert_recursive r p).1 > px <;>
          simp only [hrot, if_true, if_false]
        · exact WBST_left_rotate (WBST_node.mpr ⟨hlx, hbnd, Wl, ih⟩)
        · exact WBST_node.mpr ⟨hlx, hbnd, Wl, ih⟩

@[simp] theorem nonRootUB_leaf {b : Int} : nonRootUB Node.leaf b := trivial

@[simp] theorem nonRootUB_node {l r : Node} {x : Post} {px b : Int} :
    nonRootUB (Node.node l x px r) b ↔ UB l b ∧ UB r b := Iff.rfl

theorem rootPrioLE_mono {t : Node} {b c : Int} (h : rootPrioLE t b)
    (hbc : b ≤ c) : rootPrioLE t c := by
  cases t with
  | leaf => trivial
  | node l x px r => simp only [rootPrioLE_node] at h ⊢; omega

theorem UB_of_nonRootUB {t : Node} {b : Int} (h : nonRootUB t b)
    (hr : rootPrioLE t b) : UB t b := by
  cases t with
  | leaf => simp
  | node l x px r =>
      simp only [nonRootUB_node] at h
      simp only [rootPrioLE_node] at hr
      exact UB_node.mpr ⟨h.1, hr, h.2⟩

theorem bump1_of_not_mem {ps : List Post} {id : String}
    (h : ∀ p ∈ ps, ¬p.post_id = id) : bump1 ps id = ps := by
  induction ps with
  | nil => rfl
  | cons p ps ih =>
      simp only [bump1, h p (by simp), if_false]
      rw [ih (fun q hq => h q (by simp [hq]))]

theorem bump1_append_of_mem {as bs : List Post} {id : String}
    (h : ∃ p ∈ as, p.post_id = id) :
    bump1 (as ++ bs) id = bump1 as id ++ bs := by
  induction as with
  | nil => simp at h
  | cons p as ih =>
      by_cases hp : p.post_id = id
      · simp [bump1, hp]
      · obtain ⟨q, hq, hqid⟩ := h
        rcases List.mem_cons.mp hq with rfl | hq
        · exact absurd hqid hp
        · simp only [List.cons_append, bump1, hp, if_false]
          exact congrArg (fun ys => p :: ys) (ih ⟨q, hq, hqid⟩)

theorem bump1_append_of_not_mem {as bs : List Post} {id : String}
    (h : ∀ p ∈ as, ¬p.post_id = id) :
    bump1 (as ++ bs) id = as ++ bump1 bs id := by
  induction as with
  | nil => simp
  | cons p as ih =>
      simp only [List.cons_append, bump1, h p (by simp), if_false]
      exact congrArg (fun ys => p :: ys) (ih (fun q hq => h q (by simp [hq])))

theorem mem_bump1 {q : Post} {ps : List Post} {id : String}
    (h : q ∈ bump1 ps id) :
    q ∈ ps ∨ ∃ q₀ ∈ ps, q = { q₀ with score := q₀.score + 1 } := by
  induction ps with
  | nil => simp [bump1] at h
  | cons p ps ih =>
      by_cases hp : p.post_id = id
      · simp only [bump1, hp, if_true, List.mem_cons] at h
        rcases h with rfl | h
        · exact Or.inr ⟨p, by simp, by simp [hp]⟩
        · exact Or.inl (by simp [h])
      · simp only [bump1, hp, if_false, List.mem_cons] at h
        rcases h with rfl | h
        · exact Or.inl (by simp)
        · rcases ih h with h | ⟨q₀, hq₀, rfl⟩
          · exact Or.inl (by simp [h])
          · exact Or.inr ⟨q₀, by simp [hq₀]⟩

/-- `_contains` is true exactly when some stored post carries the id. -/
theorem contains_iff {t : Node} {id : String} :
    Treap.contains t id = true ↔ ∃ p ∈ posts t, p.post_id = id := by
  induction t with
  | leaf => simp [Treap.contains, posts]
  | node l x px r ihl ihr =>
      simp only [Treap.contains, posts, Bool.or_eq_true, decide_eq_true_eq,
        List.mem_append, List.mem_cons]
      constructor
      · rintro ((hx | hl) | hr)
        · exact ⟨x, Or.inr (Or.inl rfl), hx⟩
        · obtain ⟨p, hp, hpid⟩ := ihl.mp hl
          exact ⟨p, Or.inl hp, hpid⟩
        · obtain ⟨p, hp, hpid⟩ := ihr.mp hr
          exact ⟨p, Or.inr (Or.inr hp), hpid⟩
      · rintro ⟨p, (hp | hp | hp), hpid⟩
        · exact Or.inl (Or.inr (ihl.mpr ⟨p, hp, hpid⟩))
        · exact Or.inl (Or.inl (hp ▸ hpid))
        · exact Or.inr (ihr.mpr ⟨p, hp, hpid⟩)

/-- The found flag of `_like_recursive` agrees with `_contains`. -/
theorem lkFound_eq_contains : ∀ (t : Node) (id : String),
    Treap.lkFound t id = Treap.contains t id
  | Node.leaf, id => rfl
  | Node.node l x px r, id => by
      unfold Treap.lkFound Treap.like_recursive
      by_cases hx : x.post_id = id
      · simp [hx, Treap.contains]
      · have ihl := lkFound_eq_contains l id
        have ihr := lkFound_eq_contains r id
        unfold Treap.lkFound at ihl ihr
        simp only [hx, if_false]
        rcases hfl : (Treap.like_recursive l id).2.1 with _ | _
        · rcases hfr : (Treap.like_recursive r id).2.1 with _ | _
          · simp only [Bool.false_eq_true, if_false]
            simp [Treap.contains, hx, ← ihl, ← ihr, hfl, hfr]
          · simp only [hfl, Bool.false_eq_true, if_false, hfr, if_true]
            by_cases hrot : rootPrio (Treap.like_recursive r id).1 > px <;>
              simp [hrot, Treap.contains, hx, ← ihr, hfr]
        · simp only [if_true]
          by_cases hrot : rootPrio (Treap.like_recursive l id).1 > px <;>
            simp [hrot, Treap.contains, ← ihl, hfl]

/-- A failed `_like_recursive` search changes nothing and counts nothing. -/
theorem like_not_found : ∀ {t : Node} {id : String},
    (Treap.like_recursive t id).2.1 = false →
    (Treap.like_recursive t id).1 = t ∧ (Treap.like_recursive t id).2.2 = 0
  | Node.leaf, id, _ => ⟨rfl, rfl⟩
  | Node.node l x px r, id, h => by
      unfold Treap.like_recursive at h ⊢
      by_cases hx : x.post_id = id
      · simp [hx] at h
      · simp only [hx, if_false] at h ⊢
        rcases hfl : (Treap.like_recursive l id).2.1 with _ | _
        · rcases hfr : (Treap.like_recursive r id).2.1 with _ | _
          · have hl := like_not_found hfl
            have hr := like_not_found hfr
            simp only [hfl, hfr, Bool.false_eq_true, if_false]
            simp [hl.2, hr.2]
          · simp only [hfl, hfr, Bool.false_eq_true, if_false, if_true] at h
            by_cases hrot : rootPrio (Treap.like_recursive r id).1 > px <;>
              simp [hrot] at h
        · simp only [hfl, if_true] at h
          by_cases hrot : rootPrio (Treap.like_recursive l id).1 > px <;>
            simp [hrot] at h

theorem preoM_eq_postsM (t : Node) :
    (↑(preo t) : Multiset Post) = ↑(posts t) :=
  Multiset.coe_eq_coe.mpr (preo_perm_posts t)

theorem mem_preo_iff {p : Post} {t : Node} : p ∈ preo t ↔ p ∈ posts t :=
  (preo_perm_posts t).mem_iff

/-- `_like_recursive` bumps exactly the first post found in search order:
the stored multiset afterwards is the pre-order list with the first
id match's score incremented. -/
theorem posts_like_perm : ∀ (t : Node) (id : String),
    (↑(posts (Treap.lk t id)) : Multiset Post) = ↑(bump1 (preo t) id)
  | Node.leaf, id => rfl
  | Node.node l x px r, id => by
      unfold Treap.lk Treap.like_recursive
      by_cases hx : x.post_id = id
      · simp only [hx, if_true, preo, bump1, posts,
          ← Multiset.coe_add, ← Multiset.cons_coe, Multiset.add_cons,
          Multiset.cons_add, preoM_eq_postsM]
      · simp only [hx, if_false]
        rcases hfl : (Treap.like_recursive l id).2.1 with _ | _
        · rcases hfr : (Treap.like_recursive r id).2.1 with _ | _
          · simp only [hfl, hfr, Bool.false_eq_true, if_false]
            have hnl : ∀ p ∈ preo l, ¬p.post_id = id := by
              intro p hp hpid
              have : Treap.contains l id = true :=
                contains_iff.mpr ⟨p, mem_preo_iff.mp hp, hpid⟩
              rw [← lkFound_eq_contains] at this
              exact absurd this (by simp [Treap.lkFound, hfl])
            have hnr : ∀ p ∈ preo r, ¬p.post_id = id := by
              intro p hp hpid
              have : Treap.contains r id = true :=
                contains_iff.mpr ⟨p, mem_preo_iff.mp hp, hpid⟩
              rw [← lkFound_eq_contains] at this
              exact absurd this (by simp [Treap.lkFound, hfr])
            have : bump1 (preo (Node.node l x px r)) id
                = preo (Node.node l x px r) := by
              apply bump1_of_not_mem
              intro p hp
              simp only [preo, List.mem_cons, List.mem_append] at hp
              rcases hp with rfl | hp | hp
              · exact hx
              · exact hnl p hp
              · exact hnr p hp
            rw [this, preoM_eq_postsM]
          · simp only [hfl, hfr, Bool.false_eq_true, if_false, if_true]
            have hnl : ∀ p ∈ preo l, ¬p.post_id = id := by
              intro p hp hpid
              have : Treap.contains l id = true :=
                contains_iff.mpr ⟨p, mem_preo_iff.mp hp, hpid⟩
              rw [← lkFound_eq_contains] at this
              exact absurd this (by simp [Treap.lkFound, hfl])
            have hbump : bump1 (preo (Node.node l x px r)) id
                = x :: (preo l ++ bump1 (preo r) id) := by
              simp only [preo, bump1, hx, if_false]
              rw [bump1_append_of_not_mem hnl]
            rw [hbump]
            have ih := posts_like_perm r id
            by_cases hrot : rootPrio (Treap.like_recursive r id).1 > px <;>
              simp only [hrot, if_true, if_false, posts_left_rotate, posts] <;>
            · rw [show posts (Treap.like_recursive r id).1
                  = posts (Treap.lk r id) from rfl]
              simp only [← Multiset.coe_add, ← Multiset.cons_coe,
                Multiset.add_cons, Multiset.cons_add, ih, preoM_eq_postsM]
        · simp only [hfl, if_true]
          have hml : ∃ p ∈ preo l, p.post_id = id := by
            have : Treap.contains l id = true := by
              rw [← lkFound_eq_contains]; simpa [Treap.lkFound] using hfl
            obtain ⟨p, hp, hpid⟩ := contains_iff.mp this
            exact ⟨p, mem_preo_iff.mpr hp, hpid⟩
          have hbump : bump1 (preo (Node.node l x px r)) id
              = x :: (bump1 (preo l) id ++ preo r) := by
            simp only [preo, bump1, hx, if_false]
            rw [bump1_append_of_mem hml]
          rw [hbump]
          have ih := posts_like_perm l id
          by_cases hrot : rootPrio (Treap.like_recursive l id).1 > px <;>
            simp only [hrot, if_true, if_false, posts_right_rotate, posts] <;>
          · rw [show posts (Treap.like_recursive l id).1
                = posts (Treap.lk l id) from rfl]
            simp only [← Multiset.coe_add, ← Multiset.cons_coe,
              Multiset.add_cons, Multiset.cons_add, ih, preoM_eq_postsM]

theorem rootPrioLE_of_not_gt {t : Node} {b : Int} (h : ¬rootPrio t > b) :
    rootPrioLE t b := by
  cases t with
  | leaf => trivial
  | node l x px r => simp only [rootPrio] at h; simp only [rootPrioLE_node]; omega

/-- `_like_recursive` keeps the heap invariant; moreover any priority bound
`b` on the input keeps bounding all non-root priorities, and the new root's
priority is at most `b + 1` (the bumped node can gain one). -/
theorem like_heap (id : String) : ∀ t, Heap t →
    Heap (Treap.lk t id) ∧
    ∀ b, UB t b →
      nonRootUB (Treap.lk t id) b ∧ rootPrioLE (Treap.lk t id) (b + 1)
  | Node.leaf, _ => ⟨trivial, fun _ _ => ⟨trivial, trivial⟩⟩
  | Node.node l x px r, h => by
      obtain ⟨hl, hr, Hl, Hr⟩ := Heap_node.mp h
      unfold Treap.lk Treap.like_recursive
      by_cases hx : x.post_id = id
      · simp only [hx, if_true]
        refine ⟨Heap_node.mpr ⟨rootPrioLE_mono hl (by omega),
          rootPrioLE_mono hr (by omega), Hl, Hr⟩, ?_⟩
        intro b hUB
        obtain ⟨hUBl, hpx, hUBr⟩ := UB_node.mp hUB
        exact ⟨⟨hUBl, hUBr⟩, by simp only [rootPrioLE_node]; omega⟩
      · simp only [hx, if_false]
        rcases hfl : (Treap.like_recursive l id).2.1 with _ | _
        · rcases hfr : (Treap.like_recursive r id).2.1 with _ | _
          · simp only [hfl, hfr, Bool.false_eq_true, if_false]
            refine ⟨h, ?_⟩
            intro b hUB
            obtain ⟨hUBl, hpx, hUBr⟩ := UB_node.mp hUB
            exact ⟨⟨hUBl, hUBr⟩, by simp only [rootPrioLE_node]; omega⟩
          · simp only [hfl, hfr, Bool.false_eq_true, if_false, if_true]
            obtain ⟨IHheap, IHb⟩ := like_heap id r Hr
            by_cases hrot : rootPrio (Treap.like_recursive r id).1 > px
            · simp only [hrot, if_true]
              rcases hr' : (Treap.like_recursive r id).1 with _ | ⟨ra, rx, rpx, rb⟩
              · simp only [Treap.left_rotate]
                refine ⟨Heap_node.mpr ⟨hl, trivial, Hl, trivial⟩, ?_⟩
                intro b hUB
                obtain ⟨hUBl, hpx, hUBr⟩ := UB_node.mp hUB
                exact ⟨⟨hUBl, by simp⟩, by simp only [rootPrioLE_node]; omega⟩
              · have hr'' : Treap.lk r id = Node.node ra rx rpx rb := hr'
                rw [hr'] at hrot
                simp only [rootPrio] at hrot
                obtain ⟨hra, hrb, Hra, Hrb⟩ := Heap_node.mp (hr'' ▸ IHheap)
                have hnr := IHb px (Heap.toUB Hr hr)
                rw [hr''] at hnr
                obtain ⟨⟨hUBra, hUBrb⟩, _⟩ := hnr
                simp only [Treap.left_rotate, Heap_node]
                constructor
                · exact ⟨by simp only [rootPrioLE_node]; omega, hrb,
                    ⟨hl, UB.rootPrioLE hUBra, Hl, Hra⟩, Hrb⟩
                · intro b hUB
                  obtain ⟨hUBl, hpx, hUBr⟩ := UB_node.mp hUB
                  have hb := IHb b hUBr
                  rw [hr''] at hb
                  obtain ⟨⟨hba, hbb⟩, hbr⟩ := hb
                  simp only [rootPrioLE_node] at hbr
                  refine ⟨⟨UB_node.mpr ⟨hUBl, hpx, hba⟩, hbb⟩, ?_⟩
                  simp only [rootPrioLE_node]; omega
            · simp only [hrot, if_false]
              refine ⟨Heap_node.mpr ⟨hl, rootPrioLE_of_not_gt hrot, Hl,
                IHheap⟩, ?_⟩
              intro b hUB
              obtain ⟨hUBl, hpx, hUBr⟩ := UB_node.mp hUB
              obtain ⟨hnr, hroot⟩ := IHb b hUBr
              refine ⟨⟨hUBl, UB_of_nonRootUB hnr ?_⟩, ?_⟩
              · exact rootPrioLE_mono (rootPrioLE_of_not_gt hrot) hpx
              · simp only [rootPrioLE_node]; omega
        · simp only [hfl, if_true]
          obtain ⟨IHheap, IHb⟩ := like_heap id l Hl
          by_cases hrot : rootPrio (Treap.like_recursive l id).1 > px
          · simp only [hrot, if_true]
            rcases hl' : (Treap.like_recursive l id).1 with _ | ⟨la, lx, lpx, lb⟩
            · simp only [Treap.right_rotate]
              refine ⟨Heap_node.mpr ⟨trivial, hr, trivial, Hr⟩, ?_⟩
              intro b hUB
              obtain ⟨hUBl, hpx, hUBr⟩ := UB_node.mp hUB
              exact ⟨⟨by simp, hUBr⟩, by simp only [rootPrioLE_node]; omega⟩
            · have hl'' : Treap.lk l id = Node.node la lx lpx lb := hl'
              rw [hl'] at hrot
              simp only [rootPrio] at hrot
              obtain ⟨hla, hlb, Hla, Hlb⟩ := Heap_node.mp (hl'' ▸ IHheap)
              have hnl := IHb px (Heap.toUB Hl hl)
              rw [hl''] at hnl
              obtain ⟨⟨hUBla, hUBlb⟩, _⟩ := hnl
              simp only [Treap.right_rotate, Heap_node]
              constructor
              · exact ⟨hla, by simp only [rootPrioLE_node]; omega, Hla,
                  UB.rootPrioLE hUBlb, hr, Hlb, Hr⟩
              · intro b hUB
                obtain ⟨hUBl, hpx, hUBr⟩ := UB_node.mp hUB
                have hb := IHb b hUBl
                rw [hl''] at hb
                obtain ⟨⟨hba, hbb⟩, hbr⟩ := hb
                simp only [rootPrioLE_node] at hbr
                refine ⟨⟨hba, UB_node.mpr ⟨hbb, hpx, hUBr⟩⟩, ?_⟩
                simp only [rootPrioLE_node]; omega
          · simp only [hrot, if_false]
            refine ⟨Heap_node.mpr ⟨rootPrioLE_of_not_gt hrot, hr, IHheap,
              Hr⟩, ?_⟩
            intro b hUB
            obtain ⟨hUBl, hpx, hUBr⟩ := UB_node.mp hUB
            obtain ⟨hnr, hroot⟩ := IHb b hUBl
            refine ⟨⟨UB_of_nonRootUB hnr ?_, hUBr⟩, ?_⟩
            · exact rootPrioLE_mono (rootPrioLE_of_not_gt hrot) hpx
            · simp only [rootPrioLE_node]; omega

theorem like_P1 (id : String) : ∀ t, P1 t → P1 (Treap.lk t id)
  | Node.leaf, h => h
  | Node.node l x px r, h => by
      obtain ⟨hx', Pl, Pr⟩ := P1_node.mp h
      unfold Treap.lk Treap.like_recursive
      by_cases hx : x.post_id = id
      · simp only [hx, if_true]
        exact P1_node.mpr ⟨by simp [hx'], Pl, Pr⟩
      · simp only [hx, if_false]
        rcases hfl : (Treap.like_recursive l id).2.1 with _ | _
        · rcases hfr : (Treap.like_recursive r id).2.1 with _ | _
          · simp only [hfl, hfr, Bool.false_eq_true, if_false]
            exact h
          · simp only [hfl, hfr, Bool.false_eq_true, if_false, if_true]
            have ih := like_P1 id r Pr
            by_cases hrot : rootPrio (Treap.like_recursive r id).1 > px <;>
              simp only [hrot, if_true, if_false]
            · exact P1_left_rotate (P1_node.mpr ⟨hx', Pl, ih⟩)
            · exact P1_node.mpr ⟨hx', Pl, ih⟩
        · simp only [hfl, if_true]
          have ih := like_P1 id l Pl
          by_cases hrot : rootPrio (Treap.like_recursive l id).1 > px <;>
            simp only [hrot, if_true, if_false]
          · exact P1_right_rotate (P1_node.mpr ⟨hx', ih, Pr⟩)
          · exact P1_node.mpr ⟨hx', ih, Pr⟩

/-- Every post after a like has the timestamp of some original post. -/
theorem mem_posts_like_ts {q : Post} {t : Node} {id : String}
    (h : q ∈ posts (Treap.lk t id)) :
    ∃ q₀ ∈ posts t, q.timestamp = q₀.timestamp := by
  have hq : q ∈ (↑(posts (Treap.lk t id)) : Multiset Post) := by simpa using h
  rw [posts_like_perm t id] at hq
  have : q ∈ bump1 (preo t) id := by simpa using hq
  rcases mem_bump1 this with hq | ⟨q₀, hq₀, rfl⟩
  · exact ⟨q, mem_preo_iff.mp hq, rfl⟩
  · exact ⟨q₀, mem_preo_iff.mp hq₀, rfl⟩

theorem like_WBST (id : String) : ∀ t, WBST t → WBST (Treap.lk t id)
  | Node.leaf, h => h
  | Node.node l x px r, h => by
      obtain ⟨hlx, hrx, Wl, Wr⟩ := WBST_node.mp h
      unfold Treap.lk Treap.like_recursive
      by_cases hx : x.post_id = id
      · simp only [hx, if_true]
        exact WBST_node.mpr ⟨hlx, hrx, Wl, Wr⟩
      · simp only [hx, if_false]
        rcases hfl : (Treap.like_recursive l id).2.1 with _ | _
        · rcases hfr : (Treap.like_recursive r id).2.1 with _ | _
          · simp only [hfl, hfr, Bool.false_eq_true, if_false]
            exact h
          · simp only [hfl, hfr, Bool.false_eq_true, if_false, if_true]
            have ih := like_WBST id r Wr
            have hbnd : ∀ q ∈ posts (Treap.lk r id),
                x.timestamp ≤ q.timestamp := by
              intro q hq
              obtain ⟨q₀, hq₀, hts⟩ := mem_posts_like_ts hq
              exact hts ▸ hrx q₀ hq₀
            by_cases hrot : rootPrio (Treap.like_recursive r id).1 > px <;>
              simp only [hrot, if_true, if_false]
            · exact WBST_left_rotate (WBST_node.mpr ⟨hlx, hbnd, Wl, ih⟩)
            · exact WBST_node.mpr ⟨hlx, hbnd, Wl, ih⟩
        · simp only [hfl, if_true]
          have ih := like_WBST id l Wl
          have hbnd : ∀ q ∈ posts (Treap.lk l id),
              q.timestamp ≤ x.timestamp := by
            intro q hq
            obtain ⟨q₀, hq₀, hts⟩ := mem_posts_like_ts hq
            exact hts ▸ hlx q₀ hq₀
          by_cases hrot : rootPrio (Treap.like_recursive l id).1 > px <;>
            simp only [hrot, if_true, if_false]
          · exact WBST_right_rotate (WBST_node.mpr ⟨hbnd, hrx, ih, Wr⟩)
          · exact WBST_node.mpr ⟨hbnd, hrx, ih, Wr⟩

theorem removeFirst_of_not_mem {ps : List Post} {id : String}
    (h : ∀ p ∈ ps, ¬p.post_id = id) : removeFirst ps id = ps := by
  induction ps with
  | nil => rfl
  | cons p ps ih =>
      simp only [removeFirst, h p (by simp), if_false]
      rw [ih (fun q hq => h q (by simp [hq]))]

theorem removeFirst_append_of_mem {as bs : List Post} {id : String}
    (h : ∃ p ∈ as, p.post_id = id) :
    removeFirst (as ++ bs) id = removeFirst as id ++ bs := by
  induction as with
  | nil => simp at h
  | cons p as ih =>
      by_cases hp : p.post_id = id
      · simp [removeFirst, hp]
      · obtain ⟨q, hq, hqid⟩ := h
        rcases List.mem_cons.mp hq with rfl | hq
        · exact absurd hqid hp
        · simp only [List.cons_append, removeFirst, hp, if_false]
          exact congrArg (fun ys => p :: ys) (ih ⟨q, hq, hqid⟩)

theorem removeFirst_append_of_not_mem {as bs : List Post} {id : String}
    (h : ∀ p ∈ as, ¬p.post_id = id) :
    removeFirst (as ++ bs) id = as ++ removeFirst bs id := by
  induction as with
  | nil => simp
  | cons p as ih =>
      simp only [List.cons_append, removeFirst, h p (by simp), if_false]
      exact congrArg (fun ys => p :: ys) (ih (fun q hq => h q (by simp [hq])))

theorem mem_removeFirst {q : Post} {ps : List Post} {id : String}
    (h : q ∈ removeFirst ps id) : q ∈ ps := by
  induction ps with
  | nil => simp [removeFirst] at h
  | cons p ps ih =>
      by_cases hp : p.post_id = id
      · simp only [removeFirst, hp, if_true] at h
        exact List.mem_cons_of_mem p h
      · simp only [removeFirst, hp, if_false, List.mem_cons] at h
        rcases h with rfl | h
        · simp
        · exact List.mem_cons_of_mem p (ih h)

/-- `_delete_recursive` removes exactly the first node found in search
order: the stored multiset afterwards is the pre-order list minus its first
id match. -/
theorem del_posts : ∀ (t : Node) (id : String),
    (↑(posts (Treap.del t id)) : Multiset Post) = ↑(removeFirst (preo t) id) := by
  intro t id
  induction t, id using Treap.delete_recursive.induct with
  | case1 id => simp [Treap.del, Treap.delete_recursive, removeFirst, preo, posts]
  | case2 x px =>
      simp [Treap.del, Treap.delete_recursive, removeFirst, preo, posts]
  | case3 x px la lx lpx lb ra rx rpx rb hcmp ih =>
      unfold Treap.del Treap.delete_recursive
      simp only [if_pos rfl, hcmp, if_true]
      rw [show (Treap.delete_recursive
          (Node.node lb x px (Node.node ra rx rpx rb)) x.post_id).1
          = Treap.del (Node.node lb x px (Node.node ra rx rpx rb)) x.post_id
          from rfl]
      simp only [posts, ← Multiset.coe_add, ← Multiset.cons_coe,
        Multiset.add_cons, Multiset.cons_add, ih]
      simp [removeFirst, preo, posts, List.append_eq,
        ← Multiset.coe_add, ← Multiset.cons_coe, Multiset.add_cons,
        Multiset.cons_add, preoM_eq_postsM]
      try abel
  | case4 x px la lx lpx lb ra rx rpx rb hcmp ih =>
      unfold Treap.del Treap.delete_recursive
      simp only [if_pos rfl, hcmp, if_false]
      rw [show (Treap.delete_recursive
          (Node.node (Node.node la lx lpx lb) x px ra) x.post_id).1
          = Treap.del (Node.node (Node.node la lx lpx lb) x px ra) x.post_id
          from rfl]
      simp only [posts, ← Multiset.coe_add, ← Multiset.cons_coe,
        Multiset.add_cons, Multiset.cons_add, ih]
      simp [removeFirst, preo, posts, List.append_eq,
        ← Multiset.coe_add, ← Multiset.cons_coe, Multiset.add_cons,
        Multiset.cons_add, preoM_eq_postsM]
      try abel
      exact Multiset.cons_swap rx lx _
  | case5 x px la lx lpx lb ih =>
      unfold Treap.del Treap.delete_recursive
      simp only [if_pos rfl]
      rw [show (Treap.delete_recursive (Node.node lb x px Node.leaf)
          x.post_id).1
          = Treap.del (Node.node lb x px Node.leaf) x.post_id from rfl]
      simp only [posts, ← Multiset.coe_add, ← Multiset.cons_coe,
        Multiset.add_cons, Multiset.cons_add, ih]
      simp [removeFirst, preo, posts, List.append_eq,
        ← Multiset.coe_add, ← Multiset.cons_coe, Multiset.add_cons,
        Multiset.cons_add, preoM_eq_postsM]
      try abel
  | case6 x px ra rx rpx rb ih =>
      unfold Treap.del Treap.delete_recursive
      simp only [if_pos rfl]
      rw [show (Treap.delete_recursive (Node.node Node.leaf x px ra)
          x.post_id).1
          = Treap.del (Node.node Node.leaf x px ra) x.post_id from rfl]
      simp only [posts, ← Multiset.coe_add, ← Multiset.cons_coe,
        Multiset.add_cons, Multiset.cons_add, ih]
      simp [removeFirst, preo, posts, List.append_eq,
        ← Multiset.coe_add, ← Multiset.cons_coe, Multiset.add_cons,
        Multiset.cons_add, preoM_eq_postsM]
      try abel
  | case7 l x px r id hx hcont ih =>
      unfold Treap.del Treap.delete_recursive
      simp only [hx, if_false, hcont, if_true]
      have hml : ∃ p ∈ preo l, p.post_id = id := by
        obtain ⟨p, hp, hpid⟩ := contains_iff.mp hcont
        exact ⟨p, mem_preo_iff.mpr hp, hpid⟩
      rw [show (Treap.delete_recursive l id).1 = Treap.del l id from rfl]
      simp only [posts, preo, removeFirst, hx, if_false,
        ← Multiset.coe_add, ← Multiset.cons_coe, Multiset.add_cons,
        Multiset.cons_add, ih]
      rw [removeFirst_append_of_mem hml]
      simp only [← Multiset.coe_add, preoM_eq_postsM,
        ← Multiset.cons_coe, Multiset.add_cons, Multiset.cons_add]
      try abel
  | case8 l x px r id hx hcont ih =>
      unfold Treap.del Treap.delete_recursive
      simp only [hx, if_false, hcont, Bool.false_eq_true]
      have hnl : ∀ p ∈ preo l, ¬p.post_id = id := by
        intro p hp hpid
        exact absurd (contains_iff.mpr ⟨p, mem_preo_iff.mp hp, hpid⟩)
          (by simp [hcont])
      rw [show (Treap.delete_recursive r id).1 = Treap.del r id from rfl]
      simp only [posts, preo, removeFirst, hx, if_false,
        ← Multiset.coe_add, ← Multiset.cons_coe, Multiset.add_cons,
        Multiset.cons_add, ih]
      rw [removeFirst_append_of_not_mem hnl]
      simp only [← Multiset.coe_add, preoM_eq_postsM,
        ← Multiset.cons_coe, Multiset.add_cons, Multiset.cons_add]
      try abel

/-- Deletion only ever removes priorities; when the root itself matches the
id, the result's priorities are exactly the two children's. -/
theorem del_prios : ∀ (t : Node) (id : String),
    (↑(prios (Treap.del t id)) : Multiset Int) ≤ ↑(prios t) ∧
    (∀ la xa pxa ra, t = Node.node la xa pxa ra → xa.post_id = id →
      (↑(prios (Treap.del t id)) : Multiset Int)
        = ↑(prios la) + ↑(prios ra)) := by
  intro t id
  induction t, id using Treap.delete_recursive.induct with
  | case1 id =>
      refine ⟨by simp [Treap.del, Treap.delete_recursive], ?_⟩
      intro la xa pxa ra heq
      simp at heq
  | case2 x px =>
      refine ⟨by simp [Treap.del, Treap.delete_recursive, prios], ?_⟩
      intro la xa pxa ra heq hid
      injection heq with h1 h2 h3 h4
      subst h1; subst h4
      simp [Treap.del, Treap.delete_recursive, prios]
  | case3 x px la lx lpx lb ra rx rpx rb hcmp ih =>
      obtain ⟨ihle, iheq⟩ := ih
      have iheq' := iheq lb x px (Node.node ra rx rpx rb) rfl rfl
      unfold Treap.del Treap.delete_recursive
      simp only [if_pos rfl, hcmp, if_true]
      rw [show (Treap.delete_recursive
          (Node.node lb x px (Node.node ra rx rpx rb)) x.post_id).1
          = Treap.del (Node.node lb x px (Node.node ra rx rpx rb)) x.post_id
          from rfl]
      constructor
      · simp only [prios, ← Multiset.coe_add, ← Multiset.cons_coe,
          Multiset.add_cons, Multiset.cons_add, iheq',
          ← Multiset.singleton_add]
        exact le_trans (self_le_add_right _ {px}) (le_of_eq (by abel))
      · intro la' xa pxa ra' heq hid
        injection heq with h1 h2 h3 h4
        subst h1; subst h4
        simp only [prios, ← Multiset.coe_add, ← Multiset.cons_coe,
          Multiset.add_cons, Multiset.cons_add, iheq',
          ← Multiset.singleton_add]
        abel
  | case4 x px la lx lpx lb ra rx rpx rb hcmp ih =>
      obtain ⟨ihle, iheq⟩ := ih
      have iheq' := iheq (Node.node la lx lpx lb) x px ra rfl rfl
      unfold Treap.del Treap.delete_recursive
      simp only [if_pos rfl, hcmp, if_false]
      rw [show (Treap.delete_recursive
          (Node.node (Node.node la lx lpx lb) x px ra) x.post_id).1
          = Treap.del (Node.node (Node.node la lx lpx lb) x px ra) x.post_id
          from rfl]
      constructor
      · simp only [prios, ← Multiset.coe_add, ← Multiset.cons_coe,
          Multiset.add_cons, Multiset.cons_add, iheq',
          ← Multiset.singleton_add]
        exact le_trans (self_le_add_right _ {px}) (le_of_eq (by abel))
      · intro la' xa pxa ra' heq hid
        injection heq with h1 h2 h3 h4
        subst h1; subst h4
        simp only [prios, ← Multiset.coe_add, ← Multiset.cons_coe,
          Multiset.add_cons, Multiset.cons_add, iheq',
          ← Multiset.singleton_add]
        abel
  | case5 x px la lx lpx lb ih =>
      obtain ⟨ihle, iheq⟩ := ih
      have iheq' := iheq lb x px Node.leaf rfl rfl
      unfold Treap.del Treap.delete_recursive
      simp only [if_pos rfl]
      rw [show (Treap.delete_recursive (Node.node lb x px Node.leaf)
          x.post_id).1
          = Treap.del (Node.node lb x px Node.leaf) x.post_id from rfl]
      constructor
      · simp only [prios, ← Multiset.coe_add, ← Multiset.cons_coe,
          Multiset.add_cons, Multiset.cons_add, iheq',
          ← Multiset.singleton_add]
        exact le_trans (self_le_add_right _ {px}) (le_of_eq (by abel))
      · intro la' xa pxa ra' heq hid
        injection heq with h1 h2 h3 h4
        subst h1; subst h4
        simp only [prios, ← Multiset.coe_add, ← Multiset.cons_coe,
          Multiset.add_cons, Multiset.cons_add, iheq',
          ← Multiset.singleton_add]
        abel
  | case6 x px ra rx rpx rb ih =>
      obtain ⟨ihle, iheq⟩ := ih
      have iheq' := iheq Node.leaf x px ra rfl rfl
      unfold Treap.del Treap.delete_recursive
      simp only [if_pos rfl]
      rw [show (Treap.delete_recursive (Node.node Node.leaf x px ra)
          x.post_id).1
          = Treap.del (Node.node Node.leaf x px ra) x.post_id from rfl]
      constructor
      · simp only [prios, ← Multiset.coe_add, ← Multiset.cons_coe,
          Multiset.add_cons, Multiset.cons_add, iheq',
          ← Multiset.singleton_add]
        exact le_trans (self_le_add_right _ {px}) (le_of_eq (by abel))
      · intro la' xa pxa ra' heq hid
        injection heq with h1 h2 h3 h4
        subst h1; subst h4
        simp only [prios, ← Multiset.coe_add, ← Multiset.cons_coe,
          Multiset.add_cons, Multiset.cons_add, iheq',
          ← Multiset.singleton_add]
        abel
  | case7 l x px r id hx hcont ih =>
      obtain ⟨ihle, _⟩ := ih
      unfold Treap.del Treap.delete_recursive
      simp only [hx, if_false, hcont, if_true]
      rw [show (Treap.delete_recursive l id).1 = Treap.del l id from rfl]
      constructor
      · simp only [prios, ← Multiset.coe_add, ← Multiset.cons_coe,
          Multiset.add_cons, Multiset.cons_add, ← Multiset.singleton_add]
        exact add_le_add_right ihle _
      · intro la' xa pxa ra' heq hid
        injection heq with h1 h2 h3 h4
        subst h2
        exact absurd hid hx
  | case8 l x px r id hx hcont ih =>
      obtain ⟨ihle, _⟩ := ih
      unfold Treap.del Treap.delete_recursive
      simp only [hx, if_false, hcont, Bool.false_eq_true, if_false]
      rw [show (Treap.delete_recursive r id).1 = Treap.del r id from rfl]
      constructor
      · simp only [prios, ← Multiset.coe_add, ← Multiset.cons_coe,
          Multiset.add_cons, Multiset.cons_add, ← Multiset.singleton_add]
        exact add_le_add_left (add_le_add_left ihle _) _
      · intro la' xa pxa ra' heq hid
        injection heq with h1 h2 h3 h4
        subst h2
        exact absurd hid hx

/-- Deleting an absent id is a no-op, with no rotations counted. -/
theorem del_not_found : ∀ (t : Node) (id : String),
    Treap.contains t id = false →
    Treap.delete_recursive t id = (t, 0) := by
  intro t id
  induction t, id using Treap.delete_recursive.induct with
  | case1 id => intro _; simp [Treap.delete_recursive]
  | case2 x px => intro h; simp [Treap.contains] at h
  | case3 x px la lx lpx lb ra rx rpx rb hcmp ih =>
      intro h; simp [Treap.contains] at h
  | case4 x px la lx lpx lb ra rx rpx rb hcmp ih =>
      intro h; simp [Treap.contains] at h
  | case5 x px la lx lpx lb ih => intro h; simp [Treap.contains] at h
  | case6 x px ra rx rpx rb ih => intro h; simp [Treap.contains] at h
  | case7 l x px r id hx hcont ih =>
      intro h
      simp only [Treap.contains, Bool.or_eq_false_iff,
        decide_eq_false_iff_not] at h
      exact absurd hcont (by simp [h.1.2])
  | case8 l x px r id hx hcont ih =>
      intro h
      simp only [Treap.contains, Bool.or_eq_false_iff,
        decide_eq_false_iff_not] at h
      unfold Treap.delete_recursive
      simp only [hx, if_false, hcont, Bool.false_eq_true, if_false]
      rw [ih h.2]

/-- Any priority bound survives deletion. -/
theorem del_UB {t : Node} {id : String} {b : Int} (h : UB t b) :
    UB (Treap.del t id) b := by
  intro q hq
  have hq' : q ∈ (↑(prios (Treap.del t id)) : Multiset Int) := by simpa using hq
  exact h q (by simpa using Multiset.mem_of_le (del_prios t id).1 hq')

theorem del_rootPrioLE {t : Node} {id : String} {b : Int} (h : UB t b) :
    rootPrioLE (Treap.del t id) b :=
  UB.rootPrioLE (del_UB h)

/-- The bound from the root-match case of `del_prios`, as a `rootPrioLE`. -/
theorem del_match_rootPrioLE {l r : Node} {x : Post} {px b : Int}
    {id : String} (hx : x.post_id = id) (hl : UB l b) (hr : UB r b) :
    rootPrioLE (Treap.del (Node.node l x px r) id) b := by
  apply UB.rootPrioLE
  intro q hq
  have hq' : q ∈ (↑(prios (Treap.del (Node.node l x px r) id)) :
      Multiset Int) := by simpa using hq
  rw [(del_prios (Node.node l x px r) id).2 l x px r rfl hx] at hq'
  rcases Multiset.mem_add.mp hq' with h | h
  · exact hl q (by simpa using h)
  · exact hr q (by simpa using h)

/-- Deletion preserves the heap invariant. -/
theorem del_heap : ∀ (t : Node) (id : String), Heap t →
    Heap (Treap.del t id) := by
  intro t id
  induction t, id using Treap.delete_recursive.induct with
  | case1 id => intro _; simp [Treap.del, Treap.delete_recursive]
  | case2 x px => intro _; simp [Treap.del, Treap.delete_recursive]
  | case3 x px la lx lpx lb ra rx rpx rb hcmp ih =>
      intro h
      obtain ⟨hl, hr, Hl, Hr⟩ := Heap_node.mp h
      obtain ⟨hla, hlb, Hla, Hlb⟩ := Heap_node.mp Hl
      simp only [rootPrioLE_node] at hl hr
      have Hy : Heap (Node.node lb x px (Node.node ra rx rpx rb)) := by
        refine Heap_node.mpr ⟨rootPrioLE_mono hlb hl, ?_, Hlb, Hr⟩
        simp only [rootPrioLE_node]
        omega
      unfold Treap.del Treap.delete_recursive
      simp only [if_pos rfl, hcmp, if_true]
      rw [show (Treap.delete_recursive
          (Node.node lb x px (Node.node ra rx rpx rb)) x.post_id).1
          = Treap.del (Node.node lb x px (Node.node ra rx rpx rb)) x.post_id
          from rfl]
      refine Heap_node.mpr ⟨hla, ?_, Hla, ih Hy⟩
      apply del_match_rootPrioLE rfl
      · exact Heap.toUB Hlb hlb
      · exact (Heap.toUB Hr (by simp only [rootPrioLE_node]; omega) :
          UB (Node.node ra rx rpx rb) lpx)
  | case4 x px la lx lpx lb ra rx rpx rb hcmp ih =>
      intro h
      obtain ⟨hl, hr, Hl, Hr⟩ := Heap_node.mp h
      obtain ⟨hra, hrb, Hra, Hrb⟩ := Heap_node.mp Hr
      simp only [rootPrioLE_node] at hl hr
      have Hy : Heap (Node.node (Node.node la lx lpx lb) x px ra) := by
        refine Heap_node.mpr ⟨?_, rootPrioLE_mono hra hr, Hl, Hra⟩
        simp only [rootPrioLE_node]
        omega
      unfold Treap.del Treap.delete_recursive
      simp only [if_pos rfl, hcmp, if_false]
      rw [show (Treap.delete_recursive
          (Node.node (Node.node la lx lpx lb) x px ra) x.post_id).1
          = Treap.del (Node.node (Node.node la lx lpx lb) x px ra) x.post_id
          from rfl]
      refine Heap_node.mpr ⟨?_, hrb, ih Hy, Hrb⟩
      apply del_match_rootPrioLE rfl
      · exact (Heap.toUB Hl (by simp only [rootPrioLE_node]; omega) :
          UB (Node.node la lx lpx lb) rpx)
      · exact Heap.toUB Hra hra
  | case5 x px la lx lpx lb ih =>
      intro h
      obtain ⟨hl, hr, Hl, Hr⟩ := Heap_node.mp h
      obtain ⟨hla, hlb, Hla, Hlb⟩ := Heap_node.mp Hl
      simp only [rootPrioLE_node] at hl
      have Hy : Heap (Node.node lb x px Node.leaf) :=
        Heap_node.mpr ⟨rootPrioLE_mono hlb hl, trivial, Hlb, trivial⟩
      unfold Treap.del Treap.delete_recursive
      simp only [if_pos rfl]
      rw [show (Treap.delete_recursive (Node.node lb x px Node.leaf)
          x.post_id).1
          = Treap.del (Node.node lb x px Node.leaf) x.post_id from rfl]
      refine Heap_node.mpr ⟨hla, ?_, Hla, ih Hy⟩
      apply del_match_rootPrioLE rfl
      · exact Heap.toUB Hlb hlb
      · simp
  | case6 x px ra rx rpx rb ih =>
      intro h
      obtain ⟨hl, hr, Hl, Hr⟩ := Heap_node.mp h
      obtain ⟨hra, hrb, Hra, Hrb⟩ := Heap_node.mp Hr
      simp only [rootPrioLE_node] at hr
      have Hy : Heap (Node.node Node.leaf x px ra) :=
        Heap_node.mpr ⟨trivial, rootPrioLE_mono hra hr, trivial, Hra⟩
      unfold Treap.del Treap.delete_recursive
      simp only [if_pos rfl]
      rw [show (Treap.delete_recursive (Node.node Node.leaf x px ra)
          x.post_id).1
          = Treap.del (Node.node Node.leaf x px ra) x.post_id from rfl]
      refine Heap_node.mpr ⟨?_, hrb, ih Hy, Hrb⟩
      apply del_match_rootPrioLE rfl
      · simp
      · exact Heap.toUB Hra hra
  | case7 l x px r id hx hcont ih =>
      intro h
      obtain ⟨hl, hr, Hl, Hr⟩ := Heap_node.mp h
      unfold Treap.del Treap.delete_recursive
      simp only [hx, if_false, hcont, if_true]
      rw [show (Treap.delete_recursive l id).1 = Treap.del l id from rfl]
      exact Heap_node.mpr ⟨del_rootPrioLE (Heap.toUB Hl hl), hr, ih Hl, Hr⟩
  | case8 l x px r id hx hcont ih =>
      intro h
      obtain ⟨hl, hr, Hl, Hr⟩ := Heap_node.mp h
      unfold Treap.del Treap.delete_recursive
      simp only [hx, if_false, hcont, Bool.false_eq_true, if_false]
      rw [show (Treap.delete_recursive r id).1 = Treap.del r id from rfl]
      exact Heap_node.mpr ⟨hl, del_rootPrioLE (Heap.toUB Hr hr), Hl, ih Hr⟩

theorem del_posts_subset {q : Post} {t : Node} {id : String}
    (h : q ∈ posts (Treap.del t id)) : q ∈ posts t := by
  have hq : q ∈ (↑(posts (Treap.del t id)) : Multiset Post) := by simpa using h
  rw [del_posts] at hq
  exact mem_preo_iff.mp (mem_removeFirst (by simpa using hq))

/-- When the root matches, deletion keeps exactly the children's posts. -/
theorem del_match_posts {l r : Node} {x : Post} {px : Int} {id : String}
    (hx : x.post_id = id) :
    (↑(posts (Treap.del (Node.node l x px r) id)) : Multiset Post)
      = ↑(posts l) + ↑(posts r) := by
  rw [del_posts]
  simp [preo, removeFirst, hx, ← Multiset.coe_add, preoM_eq_postsM]

/-- Deletion preserves P1. -/
theorem del_P1 : ∀ (t : Node) (id : String), P1 t → P1 (Treap.del t id) := by
  intro t id
  induction t, id using Treap.delete_recursive.induct with
  | case1 id => intro _; simp [Treap.del, Treap.delete_recursive]
  | case2 x px => intro _; simp [Treap.del, Treap.delete_recursive]
  | case3 x px la lx lpx lb ra rx rpx rb hcmp ih =>
      intro h
      obtain ⟨hx', Pl, Pr⟩ := P1_node.mp h
      obtain ⟨hlx', Pla, Plb⟩ := P1_node.mp Pl
      unfold Treap.del Treap.delete_recursive
      simp only [if_pos rfl, hcmp, if_true]
      exact P1_node.mpr ⟨hlx', Pla, ih (P1_node.mpr ⟨hx', Plb, Pr⟩)⟩
  | case4 x px la lx lpx lb ra rx rpx rb hcmp ih =>
      intro h
      obtain ⟨hx', Pl, Pr⟩ := P1_node.mp h
      obtain ⟨hrx', Pra, Prb⟩ := P1_node.mp Pr
      unfold Treap.del Treap.delete_recursive
      simp only [if_pos rfl, hcmp, if_false]
      exact P1_node.mpr ⟨hrx', ih (P1_node.mpr ⟨hx', Pl, Pra⟩), Prb⟩
  | case5 x px la lx lpx lb ih =>
      intro h
      obtain ⟨hx', Pl, Pr⟩ := P1_node.mp h
      obtain ⟨hlx', Pla, Plb⟩ := P1_node.mp Pl
      unfold Treap.del Treap.delete_recursive
      simp only [if_pos rfl]
      exact P1_node.mpr ⟨hlx', Pla, ih (P1_node.mpr ⟨hx', Plb, trivial⟩)⟩
  | case6 x px ra rx rpx rb ih =>
      intro h
      obtain ⟨hx', Pl, Pr⟩ := P1_node.mp h
      obtain ⟨hrx', Pra, Prb⟩ := P1_node.mp Pr
      unfold Treap.del Treap.delete_recursive
      simp only [if_pos rfl]
      exact P1_node.mpr ⟨hrx', ih (P1_node.mpr ⟨hx', trivial, Pra⟩), Prb⟩
  | case7 l x px r id hx hcont ih =>
      intro h
      obtain ⟨hx', Pl, Pr⟩ := P1_node.mp h
      unfold Treap.del Treap.delete_recursive
      simp only [hx, if_false, hcont, if_true]
      exact P1_node.mpr ⟨hx', ih Pl, Pr⟩
  | case8 l x px r id hx hcont ih =>
      intro h
      obtain ⟨hx', Pl, Pr⟩ := P1_node.mp h
      unfold Treap.del Treap.delete_recursive
      simp only [hx, if_false, hcont, Bool.false_eq_true, if_false]
      exact P1_node.mpr ⟨hx', Pl, ih Pr⟩

/-- Deletion preserves the weak BST order invariant. -/
theorem del_WBST : ∀ (t : Node) (id : String), WBST t →
    WBST (Treap.del t id) := by
  intro t id
  induction t, id using Treap.delete_recursive.induct with
  | case1 id => intro _; simp [Treap.del, Treap.delete_recursive]
  | case2 x px => intro _; simp [Treap.del, Treap.delete_recursive]
  | case3 x px la lx lpx lb ra rx rpx rb hcmp ih =>
      intro h
      obtain ⟨hlx, hrx, Wl, Wr⟩ := WBST_node.mp h
      obtain ⟨hla, hlb, Wla, Wlb⟩ := WBST_node.mp Wl
      have Wy : WBST (Node.node lb x px (Node.node ra rx rpx rb)) := by
        refine WBST_node.mpr ⟨?_, hrx, Wlb, Wr⟩
        intro q hq
        exact hlx q (by simp [posts, hq])
      unfold Treap.del Treap.delete_recursive
      simp only [if_pos rfl, hcmp, if_true]
      rw [show (Treap.delete_recursive
          (Node.node lb x px (Node.node ra rx rpx rb)) x.post_id).1
          = Treap.del (Node.node lb x px (Node.node ra rx rpx rb)) x.post_id
          from rfl]
      refine WBST_node.mpr ⟨hla, ?_, Wla, ih Wy⟩
      intro q hq
      have hq' : q ∈ (↑(posts (Treap.del
          (Node.node lb x px (Node.node ra rx rpx rb)) x.post_id)) :
          Multiset Post) := by simpa using hq
      rw [del_match_posts rfl] at hq'
      have hlxx : lx.timestamp ≤ x.timestamp := hlx lx (by simp [posts])
      rcases Multiset.mem_add.mp hq' with hm | hm
      · exact hlb q (by simpa using hm)
      · exact le_trans hlxx (hrx q (by simpa using hm))
  | case4 x px la lx lpx lb ra rx rpx rb hcmp ih =>
      intro h
      obtain ⟨hlx, hrx, Wl, Wr⟩ := WBST_node.mp h
      obtain ⟨hra, hrb, Wra, Wrb⟩ := WBST_node.mp Wr
      have Wy : WBST (Node.node (Node.node la lx lpx lb) x px ra) := by
        refine WBST_node.mpr ⟨hlx, ?_, Wl, Wra⟩
        intro q hq
        exact hrx q (by simp [posts, hq])
      unfold Treap.del Treap.delete_recursive
      simp only [if_pos rfl, hcmp, if_false]
      rw [show (Treap.delete_recursive
          (Node.node (Node.node la lx lpx lb) x px ra) x.post_id).1
          = Treap.del (Node.node (Node.node la lx lpx lb) x px ra) x.post_id
          from rfl]
      refine WBST_node.mpr ⟨?_, hrb, ih Wy, Wrb⟩
      intro q hq
      have hq' : q ∈ (↑(posts (Treap.del
          (Node.node (Node.node la lx lpx lb) x px ra) x.post_id)) :
          Multiset Post) := by simpa using hq
      rw [del_match_posts rfl] at hq'
      have hxrx : x.timestamp ≤ rx.timestamp := hrx rx (by simp [posts])
      rcases Multiset.mem_add.mp hq' with hm | hm
      · exact le_trans (hlx q (by simpa using hm)) hxrx
      · exact hra q (by simpa using hm)
  | case5 x px la lx lpx lb ih =>
      intro h
      obtain ⟨hlx, hrx, Wl, Wr⟩ := WBST_node.mp h
      obtain ⟨hla, hlb, Wla, Wlb⟩ := WBST_node.mp Wl
      have Wy : WBST (Node.node lb x px Node.leaf) := by
        refine WBST_node.mpr ⟨?_, by simp [posts], Wlb, trivial⟩
        intro q hq
        exact hlx q (by simp [posts, hq])
      unfold Treap.del Treap.delete_recursive
      simp only [if_pos rfl]
      rw [show (Treap.delete_recursive (Node.node lb x px Node.leaf)
          x.post_id).1
          = Treap.del (Node.node lb x px Node.leaf) x.post_id from rfl]
      refine WBST_node.mpr ⟨hla, ?_, Wla, ih Wy⟩
      intro q hq
      have hq' : q ∈ (↑(posts (Treap.del (Node.node lb x px Node.leaf)
          x.post_id)) : Multiset Post) := by simpa using hq
      rw [del_match_posts rfl] at hq'
      rcases Multiset.mem_add.mp hq' with hm | hm
      · exact hlb q (by simpa using hm)
      · simp [posts] at hm
  | case6 x px ra rx rpx rb ih =>
      intro h
      obtain ⟨hlx, hrx, Wl, Wr⟩ := WBST_node.mp h
      obtain ⟨hra, hrb, Wra, Wrb⟩ := WBST_node.mp Wr
      have Wy : WBST (Node.node Node.leaf x px ra) := by
        refine WBST_node.mpr ⟨by simp [posts], ?_, trivial, Wra⟩
        intro q hq
        exact hrx q (by simp [posts, hq])
      unfold Treap.del Treap.delete_recursive
      simp only [if_pos rfl]
      rw [show (Treap.delete_recursive (Node.node Node.leaf x px ra)
          x.post_id).1
          = Treap.del (Node.node Node.leaf x px ra) x.post_id from rfl]
      refine WBST_node.mpr ⟨?_, hrb, ih Wy, Wrb⟩
      intro q hq
      have hq' : q ∈ (↑(posts (Treap.del (Node.node Node.leaf x px ra)
          x.post_id)) : Multiset Post) := by simpa using hq
      rw [del_match_posts rfl] at hq'
      have hxrx : x.timestamp ≤ rx.timestamp := hrx rx (by simp [posts])
      rcases Multiset.mem_add.mp hq' with hm | hm
      · simp [posts] at hm
      · exact hra q (by simpa using hm)
  | case7 l x px r id hx hcont ih =>
      intro h
      obtain ⟨hlx, hrx, Wl, Wr⟩ := WBST_node.mp h
      unfold Treap.del Treap.delete_recursive
      simp only [hx, if_false, hcont, if_true]
      rw [show (Treap.delete_recursive l id).1 = Treap.del l id from rfl]
      refine WBST_node.mpr ⟨?_, hrx, ih Wl, Wr⟩
      intro q hq
      exact hlx q (del_posts_subset hq)
  | case8 l x px r id hx hcont ih =>
      intro h
      obtain ⟨hlx, hrx, Wl, Wr⟩ := WBST_node.mp h
      unfold Treap.del Treap.delete_recursive
      simp only [hx, if_false, hcont, Bool.false_eq_true, if_false]
      rw [show (Treap.delete_recursive r id).1 = Treap.del r id from rfl]
      refine WBST_node.mpr ⟨hlx, ?_, Wl, ih Wr⟩
      intro q hq
      exact hrx q (del_posts_subset hq)

/-- `split` performs no rotation: its rotation delta is zero. -/
theorem split_rot_zero : ∀ (t : Node) (k : Int), (Treap.split t k).2.2 = 0
  | Node.leaf, _ => rfl
  | Node.node l x px r, k => by
      unfold Treap.split
      by_cases h : x.timestamp ≤ k <;> simp only [h, if_true, if_false]
      · exact split_rot_zero r k
      · exact split_rot_zero l k

/-- `split` neither adds nor drops posts. -/
theorem split_posts_perm : ∀ (t : Node) (k : Int),
    (↑(posts (Treap.split t k).1) : Multiset Post)
      + ↑(posts (Treap.split t k).2.1) = ↑(posts t)
  | Node.leaf, _ => rfl
  | Node.node l x px r, k => by
      unfold Treap.split
      by_cases h : x.timestamp ≤ k <;> simp only [h, if_true, if_false] <;>
        simp only [posts, ← Multiset.coe_add, ← Multiset.cons_coe,
          Multiset.add_cons, Multiset.cons_add, ← Multiset.singleton_add]
      · rw [← split_posts_perm r k]
        abel
      · rw [← split_posts_perm l k]
        abel

/-- `split` neither adds nor drops priorities. -/
theorem split_prios_perm : ∀ (t : Node) (k : Int),
    (↑(prios (Treap.split t k).1) : Multiset Int)
      + ↑(prios (Treap.split t k).2.1) = ↑(prios t)
  | Node.leaf, _ => rfl
  | Node.node l x px r, k => by
      unfold Treap.split
      by_cases h : x.timestamp ≤ k <;> simp only [h, if_true, if_false] <;>
        simp only [prios, ← Multiset.coe_add, ← Multiset.cons_coe,
          Multiset.add_cons, Multiset.cons_add, ← Multiset.singleton_add]
      · rw [← split_prios_perm r k]
        abel
      · rw [← split_prios_perm l k]
        abel

theorem split_posts_subset_left {q : Post} {t : Node} {k : Int}
    (h : q ∈ posts (Treap.split t k).1) : q ∈ posts t := by
  have : q ∈ (↑(posts (Treap.split t k).1) : Multiset Post) := by simpa using h
  have := Multiset.mem_of_le (le_of_eq_of_le rfl
    (le_of_le_of_eq (self_le_add_right _ _) (split_posts_perm t k))) this
  simpa using this

theorem split_posts_subset_right {q : Post} {t : Node} {k : Int}
    (h : q ∈ posts (Treap.split t k).2.1) : q ∈ posts t := by
  have : q ∈ (↑(posts (Treap.split t k).2.1) : Multiset Post) := by
    simpa using h
  have := Multiset.mem_of_le (le_of_le_of_eq (self_le_add_left _ _)
    (split_posts_perm t k)) this
  simpa using this

theorem split_prios_UB {t : Node} {k : Int} {b : Int} (h : UB t b) :
    UB (Treap.split t k).1 b ∧ UB (Treap.split t k).2.1 b := by
  constructor <;> intro q hq
  · have hq' : q ∈ (↑(prios (Treap.split t k).1) : Multiset Int) := by
      simpa using hq
    have := Multiset.mem_of_le (le_of_le_of_eq (self_le_add_right _ _)
      (split_prios_perm t k)) hq'
    exact h q (by simpa using this)
  · have hq' : q ∈ (↑(prios (Treap.split t k).2.1) : Multiset Int) := by
      simpa using hq
    have := Multiset.mem_of_le (le_of_le_of_eq (self_le_add_left _ _)
      (split_prios_perm t k)) hq'
    exact h q (by simpa using this)

/-- `split` preserves the heap invariant on both halves. -/
theorem split_Heap : ∀ {t : Node} {k : Int}, Heap t →
    Heap (Treap.split t k).1 ∧ Heap (Treap.split t k).2.1
  | Node.leaf, _, _ => ⟨trivial, trivial⟩
  | Node.node l x px r, k, h => by
      obtain ⟨hl, hr, Hl, Hr⟩ := Heap_node.mp h
      unfold Treap.split
      by_cases hts : x.timestamp ≤ k <;> simp only [hts, if_true, if_false]
      · obtain ⟨H1, H2⟩ := split_Heap (t := r) (k := k) Hr
        refine ⟨Heap_node.mpr ⟨hl, ?_, Hl, H1⟩, H2⟩
        exact UB.rootPrioLE (split_prios_UB (Heap.toUB Hr hr)).1
      · obtain ⟨H1, H2⟩ := split_Heap (t := l) (k := k) Hl
        refine ⟨H1, Heap_node.mpr ⟨?_, hr, H2, Hr⟩⟩
        exact UB.rootPrioLE (split_prios_UB (Heap.toUB Hl hl)).2

/-- `split` preserves P1 on both halves. -/
theorem split_P1 : ∀ {t : Node} {k : Int}, P1 t →
    P1 (Treap.split t k).1 ∧ P1 (Treap.split t k).2.1
  | Node.leaf, _, _ => ⟨trivial, trivial⟩
  | Node.node l x px r, k, h => by
      obtain ⟨hx, Pl, Pr⟩ := P1_node.mp h
      unfold Treap.split
      by_cases hts : x.timestamp ≤ k <;> simp only [hts, if_true, if_false]
      · obtain ⟨H1, H2⟩ := split_P1 (t := r) (k := k) Pr
        exact ⟨P1_node.mpr ⟨hx, Pl, H1⟩, H2⟩
      · obtain ⟨H1, H2⟩ := split_P1 (t := l) (k := k) Pl
        exact ⟨H1, P1_node.mpr ⟨hx, H2, Pr⟩⟩

/-- On a weakly BST-ordered tree, `split` partitions the posts exactly by
the threshold: the left half is the `≤ k` filter of the in-order list and
the right half the `> k` filter. -/
theorem split_posts_filter : ∀ {t : Node} {k : Int}, WBST t →
    posts (Treap.split t k).1
        = (posts t).filter (fun p => p.timestamp ≤ k) ∧
    posts (Treap.split t k).2.1
        = (posts t).filter (fun p => k < p.timestamp)
  | Node.leaf, _, _ => ⟨rfl, rfl⟩
  | Node.node l x px r, k, h => by
      obtain ⟨hlx, hrx, Wl, Wr⟩ := WBST_node.mp h
      unfold Treap.split
      by_cases hts : x.timestamp ≤ k <;> simp only [hts, if_true, if_false]
      · obtain ⟨H1, H2⟩ := split_posts_filter (t := r) (k := k) Wr
        have hfl : (posts l).filter (fun p => p.timestamp ≤ k) = posts l :=
          List.filter_eq_self.mpr
            (fun p hp => by simpa using le_trans (hlx p hp) hts)
        have hfl' : (posts l).filter (fun p => k < p.timestamp) = [] :=
          List.filter_eq_nil_iff.mpr
            (fun p hp => by simpa using le_trans (hlx p hp) hts)
        constructor
        · simp [posts, List.filter_append, List.filter_cons, hts, hfl, H1]
        · simp only [posts, List.filter_append, List.filter_cons, hfl', H2]
          simp [not_lt.mpr hts]
      · obtain ⟨H1, H2⟩ := split_posts_filter (t := l) (k := k) Wl
        have hfr : (posts r).filter (fun p => k < p.timestamp) = posts r :=
          List.filter_eq_self.mpr (fun p hp => by
            simpa using lt_of_not_le (fun hc =>
              hts (le_trans (hrx p hp) hc)))
        have hfr' : (posts r).filter (fun p => p.timestamp ≤ k) = [] := by
          apply List.filter_eq_nil_iff.mpr
          intro p hp
          simp only [decide_eq_true_eq]
          intro hc
          exact hts (le_trans (hrx p hp) hc)
        constructor
        · simp only [posts, List.filter_append, List.filter_cons, hfr', H1]
          simp [hts]
        · simp only [posts, List.filter_append, List.filter_cons, hfr, H2]
          simp [lt_of_not_le hts]

/-- `split` preserves the strict BST order invariant on both halves. -/
theorem split_SBST : ∀ {t : Node} {k : Int}, SBST t →
    SBST (Treap.split t k).1 ∧ SBST (Treap.split t k).2.1
  | Node.leaf, _, _ => ⟨trivial, trivial⟩
  | Node.node l x px r, k, h => by
      obtain ⟨hlx, hrx, Sl, Sr⟩ := SBST_node.mp h
      unfold Treap.split
      by_cases hts : x.timestamp ≤ k <;> simp only [hts, if_true, if_false]
      · obtain ⟨H1, H2⟩ := split_SBST (t := r) (k := k) Sr
        refine ⟨SBST_node.mpr ⟨hlx, ?_, Sl, H1⟩, H2⟩
        intro q hq
        exact hrx q (split_posts_subset_left hq)
      · obtain ⟨H1, H2⟩ := split_SBST (t := l) (k := k) Sl
        refine ⟨H1, SBST_node.mpr ⟨?_, hrx, H2, Sr⟩⟩
        intro q hq
        exact hlx q (split_posts_subset_right hq)

/-- `split` preserves the weak BST order invariant on both halves. -/
theorem split_WBST : ∀ {t : Node} {k : Int}, WBST t →
    WBST (Treap.split t k).1 ∧ WBST (Treap.split t k).2.1
  | Node.leaf, _, _ => ⟨trivial, trivial⟩
  | Node.node l x px r, k, h => by
      obtain ⟨hlx, hrx, Wl, Wr⟩ := WBST_node.mp h
      unfold Treap.split
      by_cases hts : x.timestamp ≤ k <;> simp only [hts, if_true, if_false]
      · obtain ⟨H1, H2⟩ := split_WBST (t := r) (k := k) Wr
        refine ⟨WBST_node.mpr ⟨hlx, ?_, Wl, H1⟩, H2⟩
        intro q hq
        exact hrx q (split_posts_subset_left hq)
      · obtain ⟨H1, H2⟩ := split_WBST (t := l) (k := k) Wl
        refine ⟨H1, WBST_node.mpr ⟨?_, hrx, H2, Wr⟩⟩
        intro q hq
        exact hlx q (split_posts_subset_right hq)

/-- `_union_recursive` performs no rotation: its rotation delta is zero. -/
theorem union_rot_zero : ∀ (t1 t2 : Node),
    (Treap.union_recursive t1 t2).2 = 0 := by
  intro t1 t2
  induction t1, t2 using Treap.union_recursive.induct with
  | case1 t2 => simp [Treap.union_recursive]
  | case2 t1 h =>
      cases t1 with
      | leaf => exact absurd rfl h
      | node l x px r => simp [Treap.union_recursive]
  | case3 l1 x1 p1 r1 l2 x2 p2 r2 hcmp sp ih1 ih2 =>
      have e1 : (Treap.union_recursive l2
          (Treap.split (Node.node l1 x1 p1 r1) x2.timestamp).1).2 = 0 := ih1
      have e2 : (Treap.union_recursive r2
          (Treap.split (Node.node l1 x1 p1 r1) x2.timestamp).2.1).2 = 0 := ih2
      unfold Treap.union_recursive
      simp only [hcmp, if_true]
      simp [e1, e2, split_rot_zero]
  | case4 l1 x1 p1 r1 l2 x2 p2 r2 hcmp sp ih1 ih2 =>
      have e1 : (Treap.union_recursive l1
          (Treap.split (Node.node l2 x2 p2 r2) x1.timestamp).1).2 = 0 := ih1
      have e2 : (Treap.union_recursive r1
          (Treap.split (Node.node l2 x2 p2 r2) x1.timestamp).2.1).2 = 0 := ih2
      unfold Treap.union_recursive
      simp only [hcmp, if_false]
      simp [e1, e2, split_rot_zero]

/-- `_union_recursive` keeps exactly the posts of both inputs. -/
theorem union_posts : ∀ (t1 t2 : Node),
    (↑(posts (Treap.unionT t1 t2)) : Multiset Post)
      = ↑(posts t1) + ↑(posts t2) := by
  intro t1 t2
  induction t1, t2 using Treap.union_recursive.induct with
  | case1 t2 => simp [Treap.unionT, Treap.union_recursive, posts]
  | case2 t1 h =>
      cases t1 with
      | leaf => exact absurd rfl h
      | node l x px r => simp [Treap.unionT, Treap.union_recursive, posts]
  | case3 l1 x1 p1 r1 l2 x2 p2 r2 hcmp sp ih1 ih2 =>
      have e1 : (↑(posts (Treap.unionT l2
          (Treap.split (Node.node l1 x1 p1 r1) x2.timestamp).1)) :
            Multiset Post)
          = ↑(posts l2)
            + ↑(posts (Treap.split (Node.node l1 x1 p1 r1) x2.timestamp).1) :=
        ih1
      have e2 : (↑(posts (Treap.unionT r2
          (Treap.split (Node.node l1 x1 p1 r1) x2.timestamp).2.1)) :
            Multiset Post)
          = ↑(posts r2)
            + ↑(posts (Treap.split (Node.node l1 x1 p1 r1)
                x2.timestamp).2.1) := ih2
      unfold Treap.unionT Treap.union_recursive
      simp only [hcmp, if_true]
      simp only [posts, ← Multiset.coe_add, ← Multiset.cons_coe,
        Multiset.add_cons, Multiset.cons_add, ← Multiset.singleton_add]
      rw [show (Treap.union_recursive l2
            (Treap.split (Node.node l1 x1 p1 r1) x2.timestamp).1).1
          = Treap.unionT l2
            (Treap.split (Node.node l1 x1 p1 r1) x2.timestamp).1 from rfl,
        show (Treap.union_recursive r2
            (Treap.split (Node.node l1 x1 p1 r1) x2.timestamp).2.1).1
          = Treap.unionT r2
            (Treap.split (Node.node l1 x1 p1 r1) x2.timestamp).2.1 from rfl,
        e1, e2]
      have key := split_posts_perm (Node.node l1 x1 p1 r1) x2.timestamp
      simp only [posts, ← Multiset.coe_add, ← Multiset.cons_coe,
        Multiset.add_cons, Multiset.cons_add, ← Multiset.singleton_add] at key
      rw [← key]
      abel
  | case4 l1 x1 p1 r1 l2 x2 p2 r2 hcmp sp ih1 ih2 =>
      have e1 : (↑(posts (Treap.unionT l1
          (Treap.split (Node.node l2 x2 p2 r2) x1.timestamp).1)) :
            Multiset Post)
          = ↑(posts l1)
            + ↑(posts (Treap.split (Node.node l2 x2 p2 r2) x1.timestamp).1) :=
        ih1
      have e2 : (↑(posts (Treap.unionT r1
          (Treap.split (Node.node l2 x2 p2 r2) x1.timestamp).2.1)) :
            Multiset Post)
          = ↑(posts r1)
            + ↑(posts (Treap.split (Node.node l2 x2 p2 r2)
                x1.timestamp).2.1) := ih2
      unfold Treap.unionT Treap.union_recursive
      simp only [hcmp, if_false]
      simp only [posts, ← Multiset.coe_add, ← Multiset.cons_coe,
        Multiset.add_cons, Multiset.cons_add, ← Multiset.singleton_add]
      rw [show (Treap.union_recursive l1
            (Treap.split (Node.node l2 x2 p2 r2) x1.timestamp).1).1
          = Treap.unionT l1
            (Treap.split (Node.node l2 x2 p2 r2) x1.timestamp).1 from rfl,
        show (Treap.union_recursive r1
            (Treap.split (Node.node l2 x2 p2 r2) x1.timestamp).2.1).1
          = Treap.unionT r1
            (Treap.split (Node.node l2 x2 p2 r2) x1.timestamp).2.1 from rfl,
        e1, e2]
      have key := split_posts_perm (Node.node l2 x2 p2 r2) x1.timestamp
      simp only [posts, ← Multiset.coe_add, ← Multiset.cons_coe,
        Multiset.add_cons, Multiset.cons_add, ← Multiset.singleton_add] at key
      rw [← key]
      abel

/-- `_union_recursive` keeps exactly the priorities of both inputs. -/
theorem union_prios : ∀ (t1 t2 : Node),
    (↑(prios (Treap.unionT t1 t2)) : Multiset Int)
      = ↑(prios t1) + ↑(prios t2) := by
  intro t1 t2
  induction t1, t2 using Treap.union_recursive.induct with
  | case1 t2 => simp [Treap.unionT, Treap.union_recursive, prios]
  | case2 t1 h =>
      cases t1 with
      | leaf => exact absurd rfl h
      | node l x px r => simp [Treap.unionT, Treap.union_recursive, prios]
  | case3 l1 x1 p1 r1 l2 x2 p2 r2 hcmp sp ih1 ih2 =>
      have e1 : (↑(prios (Treap.unionT l2
          (Treap.split (Node.node l1 x1 p1 r1) x2.timestamp).1)) :
            Multiset Int)
          = ↑(prios l2)
            + ↑(prios (Treap.split (Node.node l1 x1 p1 r1) x2.timestamp).1) :=
        ih1
      have e2 : (↑(prios (Treap.unionT r2
          (Treap.split (Node.node l1 x1 p1 r1) x2.timestamp).2.1)) :
            Multiset Int)
          = ↑(prios r2)
            + ↑(prios (Treap.split (Node.node l1 x1 p1 r1)
                x2.timestamp).2.1) := ih2
      unfold Treap.unionT Treap.union_recursive
      simp only [hcmp, if_true]
      simp only [prios, ← Multiset.coe_add, ← Multiset.cons_coe,
        Multiset.add_cons, Multiset.cons_add, ← Multiset.singleton_add]
      rw [show (Treap.union_recursive l2
            (Treap.split (Node.node l1 x1 p1 r1) x2.timestamp).1).1
          = Treap.unionT l2
            (Treap.split (Node.node l1 x1 p1 r1) x2.timestamp).1 from rfl,
        show (Treap.union_recursive r2
            (Treap.split (Node.node l1 x1 p1 r1) x2.timestamp).2.1).1
          = Treap.unionT r2
            (Treap.split (Node.node l1 x1 p1 r1) x2.timestamp).2.1 from rfl,
        e1, e2]
      have key := split_prios_perm (Node.node l1 x1 p1 r1) x2.timestamp
      simp only [prios, ← Multiset.coe_add, ← Multiset.cons_coe,
        Multiset.add_cons, Multiset.cons_add, ← Multiset.singleton_add] at key
      rw [← key]
      abel
  | case4 l1 x1 p1 r1 l2 x2 p2 r2 hcmp sp ih1 ih2 =>
      have e1 : (↑(prios (Treap.unionT l1
          (Treap.split (Node.node l2 x2 p2 r2) x1.timestamp).1)) :
            Multiset Int)
          = ↑(prios l1)
            + ↑(prios (Treap.split (Node.node l2 x2 p2 r2) x1.timestamp).1) :=
        ih1
      have e2 : (↑(prios (Treap.unionT r1
          (Treap.split (Node.node l2 x2 p2 r2) x1.timestamp).2.1)) :
            Multiset Int)
          = ↑(prios r1)
            + ↑(prios (Treap.split (Node.node l2 x2 p2 r2)
                x1.timestamp).2.1) := ih2
      unfold Treap.unionT Treap.union_recursive
      simp only [hcmp, if_false]
      simp only [prios, ← Multiset.coe_add, ← Multiset.cons_coe,
        Multiset.add_cons, Multiset.cons_add, ← Multiset.singleton_add]
      rw [show (Treap.union_recursive l1
            (Treap.split (Node.node l2 x2 p2 r2) x1.timestamp).1).1
          = Treap.unionT l1
            (Treap.split (Node.node l2 x2 p2 r2) x1.timestamp).1 from rfl,
        show (Treap.union_recursive r1
            (Treap.split (Node.node l2 x2 p2 r2) x1.timestamp).2.1).1
          = Treap.unionT r1
            (Treap.split (Node.node l2 x2 p2 r2) x1.timestamp).2.1 from rfl,
        e1, e2]
      have key := split_prios_perm (Node.node l2 x2 p2 r2) x1.timestamp
      simp only [prios, ← Multiset.coe_add, ← Multiset.cons_coe,
        Multiset.add_cons, Multiset.cons_add, ← Multiset.singleton_add] at key
      rw [← key]
      abel

theorem union_UB {t1 t2 : Node} {b : Int} (h1 : UB t1 b) (h2 : UB t2 b) :
    UB (Treap.unionT t1 t2) b := by
  intro q hq
  have hq' : q ∈ (↑(prios (Treap.unionT t1 t2)) : Multiset Int) := by
    simpa using hq
  rw [union_prios] at hq'
  rcases Multiset.mem_add.mp hq' with h | h
  · exact h1 q (by simpa using h)
  · exact h2 q (by simpa using h)

theorem union_posts_subset {q : Post} {t1 t2 : Node}
    (h : q ∈ posts (Treap.unionT t1 t2)) : q ∈ posts t1 ∨ q ∈ posts t2 := by
  have hq' : q ∈ (↑(posts (Treap.unionT t1 t2)) : Multiset Post) := by
    simpa using h
  rw [union_posts] at hq'
  rcases Multiset.mem_add.mp hq' with h | h
  · exact Or.inl (by simpa using h)
  · exact Or.inr (by simpa using h)

theorem split_left_le {t : Node} {k : Int} (h : WBST t) :
    ∀ p ∈ posts (Treap.split t k).1, p.timestamp ≤ k := by
  intro p hp
  rw [(split_posts_filter h).1] at hp
  simpa using (List.of_mem_filter hp)

theorem split_right_gt {t : Node} {k : Int} (h : WBST t) :
    ∀ p ∈ posts (Treap.split t k).2.1, k < p.timestamp := by
  intro p hp
  rw [(split_posts_filter h).2] at hp
  simpa using (List.of_mem_filter hp)

/-- `_union_recursive` of two heaps is a heap. -/
theorem union_Heap : ∀ (t1 t2 : Node), Heap t1 → Heap t2 →
    Heap (Treap.unionT t1 t2) := by
  intro t1 t2
  induction t1, t2 using Treap.union_recursive.induct with
  | case1 t2 =>
      intro _ h2
      simpa [Treap.unionT, Treap.union_recursive] using h2
  | case2 t1 h =>
      intro h1 _
      cases t1 with
      | leaf => exact absurd rfl h
      | node l x px r =>
          simpa [Treap.unionT, Treap.union_recursive] using h1
  | case3 l1 x1 p1 r1 l2 x2 p2 r2 hcmp sp ih1 ih2 =>
      intro h1 h2
      obtain ⟨hl2, hr2, Hl2, Hr2⟩ := Heap_node.mp h2
      have hUB1 : UB (Node.node l1 x1 p1 r1) p2 :=
        Heap.toUB h1 (by simp only [rootPrioLE_node]; omega)
      have hspH := split_Heap (k := x2.timestamp) h1
      have hspU := split_prios_UB (k := x2.timestamp) hUB1
      have e1 : Heap l2 →
          Heap (Treap.split (Node.node l1 x1 p1 r1) x2.timestamp).1 →
          Heap (Treap.unionT l2
            (Treap.split (Node.node l1 x1 p1 r1) x2.timestamp).1) := ih1
      have e2 : Heap r2 →
          Heap (Treap.split (Node.node l1 x1 p1 r1) x2.timestamp).2.1 →
          Heap (Treap.unionT r2
            (Treap.split (Node.node l1 x1 p1 r1) x2.timestamp).2.1) := ih2
      unfold Treap.unionT Treap.union_recursive
      simp only [hcmp, if_true]
      refine Heap_node.mpr ⟨?_, ?_, e1 Hl2 hspH.1, e2 Hr2 hspH.2⟩
      · exact UB.rootPrioLE (union_UB (Heap.toUB Hl2 hl2) hspU.1)
      · exact UB.rootPrioLE (union_UB (Heap.toUB Hr2 hr2) hspU.2)
  | case4 l1 x1 p1 r1 l2 x2 p2 r2 hcmp sp ih1 ih2 =>
      intro h1 h2
      obtain ⟨hl1, hr1, Hl1, Hr1⟩ := Heap_node.mp h1
      have hUB2 : UB (Node.node l2 x2 p2 r2) p1 :=
        Heap.toUB h2 (by simp only [rootPrioLE_node]; omega)
      have hspH := split_Heap (k := x1.timestamp) h2
      have hspU := split_prios_UB (k := x1.timestamp) hUB2
      have e1 : Heap l1 →
          Heap (Treap.split (Node.node l2 x2 p2 r2) x1.timestamp).1 →
          Heap (Treap.unionT l1
            (Treap.split (Node.node l2 x2 p2 r2) x1.timestamp).1) := ih1
      have e2 : Heap r1 →
          Heap (Treap.split (Node.node l2 x2 p2 r2) x1.timestamp).2.1 →
          Heap (Treap.unionT r1
            (Treap.split (Node.node l2 x2 p2 r2) x1.timestamp).2.1) := ih2
      unfold Treap.unionT Treap.union_recursive
      simp only [hcmp, if_false]
      refine Heap_node.mpr ⟨?_, ?_, e1 Hl1 hspH.1, e2 Hr1 hspH.2⟩
      · exact UB.rootPrioLE (union_UB (Heap.toUB Hl1 hl1) hspU.1)
      · exact UB.rootPrioLE (union_UB (Heap.toUB Hr1 hr1) hspU.2)

/-- `_union_recursive` preserves P1. -/
theorem union_P1 : ∀ (t1 t2 : Node), P1 t1 → P1 t2 →
    P1 (Treap.unionT t1 t2) := by
  intro t1 t2
  induction t1, t2 using Treap.union_recursive.induct with
  | case1 t2 =>
      intro _ h2
      simpa [Treap.unionT, Treap.union_recursive] using h2
  | case2 t1 h =>
      intro h1 _
      cases t1 with
      | leaf => exact absurd rfl h
      | node l x px r =>
          simpa [Treap.unionT, Treap.union_recursive] using h1
  | case3 l1 x1 p1 r1 l2 x2 p2 r2 hcmp sp ih1 ih2 =>
      intro h1 h2
      obtain ⟨hx2, Pl2, Pr2⟩ := P1_node.mp h2
      have hspP := split_P1 (k := x2.timestamp) h1
      have e1 : P1 l2 →
          P1 (Treap.split (Node.node l1 x1 p1 r1) x2.timestamp).1 →
          P1 (Treap.unionT l2
            (Treap.split (Node.node l1 x1 p1 r1) x2.timestamp).1) := ih1
      have e2 : P1 r2 →
          P1 (Treap.split (Node.node l1 x1 p1 r1) x2.timestamp).2.1 →
          P1 (Treap.unionT r2
            (Treap.split (Node.node l1 x1 p1 r1) x2.timestamp).2.1) := ih2
      unfold Treap.unionT Treap.union_recursive
      simp only [hcmp, if_true]
      exact P1_node.mpr ⟨hx2, e1 Pl2 hspP.1, e2 Pr2 hspP.2⟩
  | case4 l1 x1 p1 r1 l2 x2 p2 r2 hcmp sp ih1 ih2 =>
      intro h1 h2
      obtain ⟨hx1, Pl1, Pr1⟩ := P1_node.mp h1
      have hspP := split_P1 (k := x1.timestamp) h2
      have e1 : P1 l1 →
          P1 (Treap.split (Node.node l2 x2 p2 r2) x1.timestamp).1 →
          P1 (Treap.unionT l1
            (Treap.split (Node.node l2 x2 p2 r2) x1.timestamp).1) := ih1
      have e2 : P1 r1 →
          P1 (Treap.split (Node.node l2 x2 p2 r2) x1.timestamp).2.1 →
          P1 (Treap.unionT r1
            (Treap.split (Node.node l2 x2 p2 r2) x1.timestamp).2.1) := ih2
      unfold Treap.unionT Treap.union_recursive
      simp only [hcmp, if_false]
      exact P1_node.mpr ⟨hx1, e1 Pl1 hspP.1, e2 Pr1 hspP.2⟩

/-- `_union_recursive` of two weakly BST-ordered trees is weakly
BST-ordered (equal timestamps from the split may land in the left child, so
only the weak invariant survives). -/
theorem union_WBST : ∀ (t1 t2 : Node), WBST t1 → WBST t2 →
    WBST (Treap.unionT t1 t2) := by
  intro t1 t2
  induction t1, t2 using Treap.union_recursive.induct with
  | case1 t2 =>
      intro _ h2
      simpa [Treap.unionT, Treap.union_recursive] using h2
  | case2 t1 h =>
      intro h1 _
      cases t1 with
      | leaf => exact absurd rfl h
      | node l x px r =>
          simpa [Treap.unionT, Treap.union_recursive] using h1
  | case3 l1 x1 p1 r1 l2 x2 p2 r2 hcmp sp ih1 ih2 =>
      intro h1 h2
      obtain ⟨hl2, hr2, Wl2, Wr2⟩ := WBST_node.mp h2
      have hspW := split_WBST (k := x2.timestamp) h1
      have e1 : WBST l2 →
          WBST (Treap.split (Node.node l1 x1 p1 r1) x2.timestamp).1 →
          WBST (Treap.unionT l2
            (Treap.split (Node.node l1 x1 p1 r1) x2.timestamp).1) := ih1
      have e2 : WBST r2 →
          WBST (Treap.split (Node.node l1 x1 p1 r1) x2.timestamp).2.1 →
          WBST (Treap.unionT r2
            (Treap.split (Node.node l1 x1 p1 r1) x2.timestamp).2.1) := ih2
      unfold Treap.unionT Treap.union_recursive
      simp only [hcmp, if_true]
      refine WBST_node.mpr ⟨?_, ?_, e1 Wl2 hspW.1, e2 Wr2 hspW.2⟩
      · intro q hq
        rcases union_posts_subset hq with hm | hm
        · exact hl2 q hm
        · exact split_left_le h1 q hm
      · intro q hq
        rcases union_posts_subset hq with hm | hm
        · exact hr2 q hm
        · exact le_of_lt (split_right_gt h1 q hm)
  | case4 l1 x1 p1 r1 l2 x2 p2 r2 hcmp sp ih1 ih2 =>
      intro h1 h2
      obtain ⟨hl1, hr1, Wl1, Wr1⟩ := WBST_node.mp h1
      have hspW := split_WBST (k := x1.timestamp) h2
      have e1 : WBST l1 →
          WBST (Treap.split (Node.node l2 x2 p2 r2) x1.timestamp).1 →
          WBST (Treap.unionT l1
            (Treap.split (Node.node l2 x2 p2 r2) x1.timestamp).1) := ih1
      have e2 : WBST r1 →
          WBST (Treap.split (Node.node l2 x2 p2 r2) x1.timestamp).2.1 →
          WBST (Treap.unionT r1
            (Treap.split (Node.node l2 x2 p2 r2) x1.timestamp).2.1) := ih2
      unfold Treap.unionT Treap.union_recursive
      simp only [hcmp, if_false]
      refine WBST_node.mpr ⟨?_, ?_, e1 Wl1 hspW.1, e2 Wr1 hspW.2⟩
      · intro q hq
        rcases union_posts_subset hq with hm | hm
        · exact hl1 q hm
        · exact split_left_le h2 q hm
      · intro q hq
        rcases union_posts_subset hq with hm | hm
        · exact hr1 q hm
        · exact le_of_lt (split_right_gt h2 q hm)

/-! ### BST lemmas -/

theorem posts_bstIns_perm (p : Post) :
    ∀ t, (↑(posts (BST.insT t p)) : Multiset Post) = p ::ₘ ↑(posts t)
  | Node.leaf => by simp [BST.insT, BST.insert_recursive, mkNode, posts]
  | Node.node l x px r => by
      unfold BST.insT BST.insert_recursive
      by_cases hts : p.timestamp < x.timestamp <;>
        simp only [hts, if_true, if_false, posts, ← Multiset.coe_add,
          ← Multiset.cons_coe, Multiset.add_cons, Multiset.cons_add,
          ← Multiset.singleton_add]
      · rw [show (BST.insert_recursive l p).1 = BST.insT l p from rfl,
          posts_bstIns_perm p l]
        simp only [← Multiset.singleton_add]
        abel
      · rw [show (BST.insert_recursive r p).1 = BST.insT r p from rfl,
          posts_bstIns_perm p r]
        simp only [← Multiset.singleton_add]
        abel

theorem mem_posts_bstIns {q p : Post} {t : Node}
    (h : q ∈ posts (BST.insT t p)) : q = p ∨ q ∈ posts t := by
  have hq : q ∈ (↑(posts (BST.insT t p)) : Multiset Post) := by simpa using h
  rw [posts_bstIns_perm] at hq
  simpa using hq

/-- BST insertion preserves the strict BST order invariant. -/
theorem bstIns_SBST (p : Post) : ∀ t, SBST t → SBST (BST.insT t p)
  | Node.leaf, _ => by simp [BST.insT, BST.insert_recursive, mkNode, posts]
  | Node.node l x px r, h => by
      obtain ⟨hlx, hrx, Sl, Sr⟩ := SBST_node.mp h
      unfold BST.insT BST.insert_recursive
      by_cases hts : p.timestamp < x.timestamp <;>
        simp only [hts, if_true, if_false]
      · refine SBST_node.mpr ⟨?_, hrx, bstIns_SBST p l Sl, Sr⟩
        intro q hq
        rcases mem_posts_bstIns hq with rfl | hq
        · exact hts
        · exact hlx q hq
      · refine SBST_node.mpr ⟨hlx, ?_, Sl, bstIns_SBST p r Sr⟩
        intro q hq
        rcases mem_posts_bstIns hq with rfl | hq
        · exact le_of_not_lt hts
        · exact hrx q hq

/-- BST insertion preserves the weak BST order invariant. -/
theorem bstIns_WBST (p : Post) : ∀ t, WBST t → WBST (BST.insT t p)
  | Node.leaf, _ => by simp [BST.insT, BST.insert_recursive, mkNode, posts]
  | Node.node l x px r, h => by
      obtain ⟨hlx, hrx, Wl, Wr⟩ := WBST_node.mp h
      unfold BST.insT BST.insert_recursive
      by_cases hts : p.timestamp < x.timestamp <;>
        simp only [hts, if_true, if_false]
      · refine WBST_node.mpr ⟨?_, hrx, bstIns_WBST p l Wl, Wr⟩
        intro q hq
        rcases mem_posts_bstIns hq with rfl | hq
        · exact le_of_lt hts
        · exact hlx q hq
      · refine WBST_node.mpr ⟨hlx, ?_, Wl, bstIns_WBST p r Wr⟩
        intro q hq
        rcases mem_posts_bstIns hq with rfl | hq
        · exact le_of_not_lt hts
        · exact hrx q hq

/-- The BST like search finds by the same pre-order rule as `_contains`. -/
theorem bstLike_found_eq_contains : ∀ (t : Node) (id : String),
    (BST.likeT t id).2 = Treap.contains t id
  | Node.leaf, id => rfl
  | Node.node l x px r, id => by
      unfold BST.likeT
      by_cases hx : x.post_id = id
      · simp [hx, Treap.contains]
      · have ihl := bstLike_found_eq_contains l id
        have ihr := bstLike_found_eq_contains r id
        simp only [hx, if_false]
        rcases hfl : (BST.likeT l id).2 with _ | _
        · simp only [Bool.false_eq_true, if_false]
          simp [Treap.contains, hx, ← ihl, ← ihr, hfl]
        · simp only [if_true]
          simp [Treap.contains, hx, ← ihl, hfl]

theorem bstLike_not_found : ∀ {t : Node} {id : String},
    (BST.likeT t id).2 = false → (BST.likeT t id).1 = t
  | Node.leaf, id, _ => rfl
  | Node.node l x px r, id, h => by
      unfold BST.likeT at h ⊢
      by_cases hx : x.post_id = id
      · simp [hx] at h
      · simp only [hx, if_false] at h ⊢
        rcases hfl : (BST.likeT l id).2 with _ | _
        · simp only [hfl, Bool.false_eq_true, if_false] at h ⊢
          rcases hfr : (BST.likeT r id).2 with _ | _
          · rw [bstLike_not_found hfr]
          · simp [hfr] at h
        · simp [hfl] at h

/-- The BST like bumps exactly the first pre-order match, preserving the
tree shape: its pre-order listing afterwards is `bump1` of the original. -/
theorem bstLike_preo : ∀ (t : Node) (id : String),
    preo ((BST.likeT t id).1) = bump1 (preo t) id
  | Node.leaf, id => rfl
  | Node.node l x px r, id => by
      unfold BST.likeT
      by_cases hx : x.post_id = id
      · simp [hx, preo, bump1]
      · simp only [hx, if_false]
        rcases hfl : (BST.likeT l id).2 with _ | _
        · simp only [hfl, Bool.false_eq_true, if_false]
          have hnl : ∀ p ∈ preo l, ¬p.post_id = id := by
            intro p hp hpid
            have hc : Treap.contains l id = true :=
              contains_iff.mpr ⟨p, mem_preo_iff.mp hp, hpid⟩
            rw [← bstLike_found_eq_contains] at hc
            exact absurd hc (by simp [hfl])
          simp only [preo, bump1, hx, if_false]
          rw [bump1_append_of_not_mem hnl, bstLike_preo r id]
        · simp only [hfl, if_true]
          have hml : ∃ p ∈ preo l, p.post_id = id := by
            have hc : Treap.contains l id = true := by
              rw [← bstLike_found_eq_contains]; exact hfl
            obtain ⟨p, hp, hpid⟩ := contains_iff.mp hc
            exact ⟨p, mem_preo_iff.mpr hp, hpid⟩
          simp only [preo, bump1, hx, if_false]
          rw [bump1_append_of_mem hml, bstLike_preo l id]

theorem posts_bstLike_perm (t : Node) (id : String) :
    (↑(posts ((BST.likeT t id).1)) : Multiset Post)
      = ↑(bump1 (preo t) id) := by
  rw [← preoM_eq_postsM, bstLike_preo]

theorem mem_posts_bstLike_ts {q : Post} {t : Node} {id : String}
    (h : q ∈ posts ((BST.likeT t id).1)) :
    ∃ q₀ ∈ posts t, q.timestamp = q₀.timestamp := by
  have hq : q ∈ (↑(posts ((BST.likeT t id).1)) : Multiset Post) := by
    simpa using h
  rw [posts_bstLike_perm] at hq
  rcases mem_bump1 (by simpa using hq) with hm | ⟨q₀, hq₀, rfl⟩
  · exact ⟨q, mem_preo_iff.mp hm, rfl⟩
  · exact ⟨q₀, mem_preo_iff.mp hq₀, rfl⟩

/-- The BST like preserves the strict BST order invariant. -/
theorem bstLike_SBST (id : String) : ∀ t, SBST t → SBST ((BST.likeT t id).1)
  | Node.leaf, h => h
  | Node.node l x px r, h => by
      obtain ⟨hlx, hrx, Sl, Sr⟩ := SBST_node.mp h
      unfold BST.likeT
      by_cases hx : x.post_id = id
      · simp only [hx, if_true]
        exact SBST_node.mpr ⟨hlx, hrx, Sl, Sr⟩
      · simp only [hx, if_false]
        rcases hfl : (BST.likeT l id).2 with _ | _
        · simp only [hfl, Bool.false_eq_true, if_false]
          refine SBST_node.mpr ⟨hlx, ?_, Sl, bstLike_SBST id r Sr⟩
          intro q hq
          obtain ⟨q₀, hq₀, hts⟩ := mem_posts_bstLike_ts hq
          exact hts ▸ hrx q₀ hq₀
        · simp only [hfl, if_true]
          refine SBST_node.mpr ⟨?_, hrx, bstLike_SBST id l Sl, Sr⟩
          intro q hq
          obtain ⟨q₀, hq₀, hts⟩ := mem_posts_bstLike_ts hq
          exact hts ▸ hlx q₀ hq₀

/-- The BST like preserves the weak BST order invariant. -/
theorem bstLike_WBST (id : String) : ∀ t, WBST t → WBST ((BST.likeT t id).1)
  | Node.leaf, h => h
  | Node.node l x px r, h => by
      obtain ⟨hlx, hrx, Wl, Wr⟩ := WBST_node.mp h
      unfold BST.likeT
      by_cases hx : x.post_id = id
      · simp only [hx, if_true]
        exact WBST_node.mpr ⟨hlx, hrx, Wl, Wr⟩
      · simp only [hx, if_false]
        rcases hfl : (BST.likeT l id).2 with _ | _
        · simp only [hfl, Bool.false_eq_true, if_false]
          refine WBST_node.mpr ⟨hlx, ?_, Wl, bstLike_WBST id r Wr⟩
          intro q hq
          obtain ⟨q₀, hq₀, hts⟩ := mem_posts_bstLike_ts hq
          exact hts ▸ hrx q₀ hq₀
        · simp only [hfl, if_true]
          refine WBST_node.mpr ⟨?_, hrx, bstLike_WBST id l Wl, Wr⟩
          intro q hq
          obtain ⟨q₀, hq₀, hts⟩ := mem_posts_bstLike_ts hq
          exact hts ▸ hlx q₀ hq₀

/-- The in-order listing starts with the leftmost node's post, and
`delete_by_obj` drops exactly that first element. -/
theorem min_node_posts : ∀ (l r : Node) (x : Post) (px : Int),
    posts (Node.node l x px r)
      = (BST.get_min_node (Node.node l x px r)).1
          :: posts (BST.delete_by_obj (Node.node l x px r))
  | Node.leaf, r, x, px => by
      simp [BST.get_min_node, BST.delete_by_obj, posts]
  | Node.node a y py b, r, x, px => by
      have ih := min_node_posts a b y py
      simp only [BST.get_min_node, BST.delete_by_obj, posts]
      rw [← List.cons_append, ← ih]
      simp [posts]

theorem min_node_mem {l r : Node} {x : Post} {px : Int} :
    (BST.get_min_node (Node.node l x px r)).1 ∈ posts (Node.node l x px r) := by
  rw [min_node_posts]
  simp

theorem delete_by_obj_subset {q : Post} {l r : Node} {x : Post} {px : Int}
    (h : q ∈ posts (BST.delete_by_obj (Node.node l x px r))) :
    q ∈ posts (Node.node l x px r) := by
  rw [min_node_posts]
  simp [h]

/-- Minimality of the leftmost node under the weak order invariant. -/
theorem min_node_le : ∀ {l r : Node} {x : Post} {px : Int},
    WBST (Node.node l x px r) →
    ∀ q ∈ posts (Node.node l x px r),
      (BST.get_min_node (Node.node l x px r)).1.timestamp ≤ q.timestamp
  | Node.leaf, r, x, px, h, q, hq => by
      obtain ⟨_, hrx, _, _⟩ := WBST_node.mp h
      simp only [BST.get_min_node]
      simp only [posts, List.nil_append, List.mem_cons] at hq
      rcases hq with rfl | hq
      · exact le_refl _
      · exact hrx q hq
  | Node.node a y py b, r, x, px, h, q, hq => by
      obtain ⟨hlx, hrx, Wl, Wr⟩ := WBST_node.mp h
      have hmem : (BST.get_min_node (Node.node a y py b)).1
          ∈ posts (Node.node a y py b) := min_node_mem
      have hminx : (BST.get_min_node (Node.node a y py b)).1.timestamp
          ≤ x.timestamp := hlx _ hmem
      simp only [BST.get_min_node]
      simp only [posts, List.mem_append, List.mem_cons] at hq
      rcases hq with hq | rfl | hq
      · exact min_node_le Wl q (by simp [posts, hq])
      · exact hminx
      · exact le_trans hminx (hrx q hq)

/-- `delete_by_obj` preserves the strict BST order invariant. -/
theorem delete_by_obj_SBST : ∀ {t : Node}, SBST t →
    SBST (BST.delete_by_obj t)
  | Node.leaf, _ => trivial
  | Node.node Node.leaf x px r, h => (SBST_node.mp h).2.2.2
  | Node.node (Node.node a y py b) x px r, h => by
      obtain ⟨hlx, hrx, Sl, Sr⟩ := SBST_node.mp h
      simp only [BST.delete_by_obj]
      refine SBST_node.mpr ⟨?_, hrx, delete_by_obj_SBST Sl, Sr⟩
      intro q hq
      exact hlx q (delete_by_obj_subset hq)

/-- `delete_by_obj` preserves the weak BST order invariant. -/
theorem delete_by_obj_WBST : ∀ {t : Node}, WBST t →
    WBST (BST.delete_by_obj t)
  | Node.leaf, _ => trivial
  | Node.node Node.leaf x px r, h => (WBST_node.mp h).2.2.2
  | Node.node (Node.node a y py b) x px r, h => by
      obtain ⟨hlx, hrx, Wl, Wr⟩ := WBST_node.mp h
      simp only [BST.delete_by_obj]
      refine WBST_node.mpr ⟨?_, hrx, delete_by_obj_WBST Wl, Wr⟩
      intro q hq
      exact hlx q (delete_by_obj_subset hq)

theorem SBST.toWBST : ∀ {t : Node}, SBST t → WBST t
  | Node.leaf, _ => trivial
  | Node.node l x px r, h => by
      obtain ⟨hlx, hrx, Sl, Sr⟩ := SBST_node.mp h
      exact WBST_node.mpr ⟨fun q hq => le_of_lt (hlx q hq), hrx,
        SBST.toWBST Sl, SBST.toWBST Sr⟩

theorem bstDel_subset {id : String} : ∀ {t : Node} {q : Post},
    q ∈ posts (BST.delete_recursive t id) → q ∈ posts t
  | Node.leaf, q, h => h
  | Node.node l x px r, q, h => by
      unfold BST.delete_recursive at h
      by_cases hx : x.post_id = id
      · simp only [hx, if_true] at h
        cases l with
        | leaf =>
            cases r with
            | leaf =>
                replace h : q ∈ posts (Node.leaf : Node) := h
                simp [posts] at h
            | node ra ry ryp rb =>
                replace h : q ∈ posts (Node.node ra ry ryp rb) := h
                simp only [posts, List.mem_append, List.mem_cons] at h ⊢
                tauto
        | node la ly py lb =>
          cases r with
          | leaf =>
              replace h : q ∈ posts (Node.node la ly py lb) := h
              simp only [posts, List.mem_append, List.mem_cons] at h ⊢
              tauto
          | node ra ry ryp rb =>
              replace h : q ∈ posts (Node.node (Node.node la ly py lb)
                  (BST.get_min_node (Node.node ra ry ryp rb)).1
                  (BST.get_min_node (Node.node ra ry ryp rb)).2
                  (BST.delete_by_obj (Node.node ra ry ryp rb))) := h
              simp only [posts, List.mem_append, List.mem_cons] at h ⊢
              rcases h with h | rfl | h
              · tauto
              · have := @min_node_mem ra rb ry ryp
                simp only [posts, List.mem_append, List.mem_cons] at this
                tauto
              · have := delete_by_obj_subset h
                simp only [posts, List.mem_append, List.mem_cons] at this
                tauto
      · simp only [hx, if_false] at h
        simp only [posts, List.mem_append, List.mem_cons] at h ⊢
        rcases h with h | rfl | h
        · exact Or.inl (bstDel_subset h)
        · tauto
        · exact Or.inr (Or.inr (bstDel_subset h))

theorem bstDel_not_found : ∀ {t : Node} {id : String},
    Treap.contains t id = false → BST.delete_recursive t id = t
  | Node.leaf, id, _ => rfl
  | Node.node l x px r, id, h => by
      simp only [Treap.contains, Bool.or_eq_false_iff,
        decide_eq_false_iff_not] at h
      unfold BST.delete_recursive
      simp only [h.1.1, if_false]
      rw [bstDel_not_found h.1.2, bstDel_not_found h.2]

/-- BST deletion preserves the strict BST order invariant. -/
theorem bstDel_SBST {id : String} : ∀ {t : Node}, SBST t →
    SBST (BST.delete_recursive t id)
  | Node.leaf, _ => trivial
  | Node.node l x px r, h => by
      obtain ⟨hlx, hrx, Sl, Sr⟩ := SBST_node.mp h
      unfold BST.delete_recursive
      by_cases hx : x.post_id = id
      · simp only [hx, if_true]
        cases l with
        | leaf =>
            cases r with
            | leaf => exact (trivial : SBST Node.leaf)
            | node ra ry ryp rb => exact Sr
        | node la ly py lb =>
          cases r with
          | leaf => exact Sl
          | node ra ry ryp rb =>
              show SBST (Node.node (Node.node la ly py lb)
                (BST.get_min_node (Node.node ra ry ryp rb)).1
                (BST.get_min_node (Node.node ra ry ryp rb)).2
                (BST.delete_by_obj (Node.node ra ry ryp rb)))
              refine SBST_node.mpr ⟨?_, ?_, Sl, delete_by_obj_SBST Sr⟩
              · intro q hq
                have hxm : x.timestamp
                    ≤ (BST.get_min_node (Node.node ra ry ryp rb)).1.timestamp :=
                  hrx _ min_node_mem
                exact lt_of_lt_of_le (hlx q hq) hxm
              · intro q hq
                exact min_node_le (SBST.toWBST Sr) q (delete_by_obj_subset hq)
      · simp only [hx, if_false]
        refine SBST_node.mpr ⟨?_, ?_, bstDel_SBST Sl, bstDel_SBST Sr⟩
        · intro q hq
          exact hlx q (bstDel_subset hq)
        · intro q hq
          exact hrx q (bstDel_subset hq)

/-- BST deletion preserves the weak BST order invariant. -/
theorem bstDel_WBST {id : String} : ∀ {t : Node}, WBST t →
    WBST (BST.delete_recursive t id)
  | Node.leaf, _ => trivial
  | Node.node l x px r, h => by
      obtain ⟨hlx, hrx, Wl, Wr⟩ := WBST_node.mp h
      unfold BST.delete_recursive
      by_cases hx : x.post_id = id
      · simp only [hx, if_true]
        cases l with
        | leaf =>
            cases r with
            | leaf => exact (trivial : WBST Node.leaf)
            | node ra ry ryp rb => exact Wr
        | node la ly py lb =>
          cases r with
          | leaf => exact Wl
          | node ra ry ryp rb =>
              show WBST (Node.node (Node.node la ly py lb)
                (BST.get_min_node (Node.node ra ry ryp rb)).1
                (BST.get_min_node (Node.node ra ry ryp rb)).2
                (BST.delete_by_obj (Node.node ra ry ryp rb)))
              refine WBST_node.mpr ⟨?_, ?_, Wl, delete_by_obj_WBST Wr⟩
              · intro q hq
                have hxm : x.timestamp
                    ≤ (BST.get_min_node (Node.node ra ry ryp rb)).1.timestamp :=
                  hrx _ min_node_mem
                exact le_trans (hlx q hq) hxm
              · intro q hq
                exact min_node_le Wr q (delete_by_obj_subset hq)
      · simp only [hx, if_false]
        refine WBST_node.mpr ⟨?_, ?_, bstDel_WBST Wl, bstDel_WBST Wr⟩
        · intro q hq
          exact hlx q (bstDel_subset hq)
        · intro q hq
          exact hrx q (bstDel_subset hq)

/-- When at most one stored post carries the id, BST deletion removes
exactly the first pre-order match. -/
theorem bstDel_unique (id : String) : ∀ (t : Node),
    (posts t).countP (fun p => decide (p.post_id = id)) ≤ 1 →
    (↑(posts (BST.delete_recursive t id)) : Multiset Post)
      = ↑(removeFirst (preo t) id)
  | Node.leaf, _ => rfl
  | Node.node l x px r, hcount => by
      unfold BST.delete_recursive
      by_cases hx : x.post_id = id
      · simp only [hx, if_true]
        have hrf : removeFirst (preo (Node.node l x px r)) id
            = preo l ++ preo r := by
          simp [preo, removeFirst, hx]
        rw [hrf]
        cases l with
        | leaf =>
          cases r with
          | leaf =>
              show (↑(posts (Node.leaf : Node)) : Multiset Post) = _
              simp [posts, preo]
          | node ra ry ryp rb =>
              show (↑(posts (Node.node ra ry ryp rb)) : Multiset Post) = _
              rw [show preo Node.leaf ++ preo (Node.node ra ry ryp rb)
                  = preo (Node.node ra ry ryp rb) from by simp [preo],
                preoM_eq_postsM]
        | node la ly py lb =>
          cases r with
          | leaf =>
              show (↑(posts (Node.node la ly py lb)) : Multiset Post) = _
              rw [show preo (Node.node la ly py lb) ++ preo Node.leaf
                  = preo (Node.node la ly py lb) from by simp [preo],
                preoM_eq_postsM]
          | node ra ry ryp rb =>
              show (↑(posts (Node.node (Node.node la ly py lb)
                (BST.get_min_node (Node.node ra ry ryp rb)).1
                (BST.get_min_node (Node.node ra ry ryp rb)).2
                (BST.delete_by_obj (Node.node ra ry ryp rb)))) :
                  Multiset Post) = _
              have hmin := min_node_posts ra rb ry ryp
              simp only [posts, ← Multiset.coe_add, ← Multiset.cons_coe,
                Multiset.add_cons, Multiset.cons_add,
                ← Multiset.singleton_add]
              rw [show ({(BST.get_min_node (Node.node ra ry ryp rb)).1}
                  + ↑(posts (BST.delete_by_obj (Node.node ra ry ryp rb)))
                  : Multiset Post)
                  = ↑(posts (Node.node ra ry ryp rb)) from by
                rw [hmin]
                simp [← Multiset.cons_coe, ← Multiset.singleton_add]]
              simp only [← Multiset.coe_add, preoM_eq_postsM, posts,
                ← Multiset.cons_coe, Multiset.add_cons, Multiset.cons_add,
                ← Multiset.singleton_add]
              try abel
      · simp only [hx, if_false]
        have hcount' : (posts l).countP (fun p => decide (p.post_id = id))
            + (posts r).countP (fun p => decide (p.post_id = id)) ≤ 1 := by
          simp only [posts, List.countP_append, List.countP_cons, hx,
            decide_eq_true_eq, if_false] at hcount
          omega
        by_cases hcl : Treap.contains l id = true
        · have hpos : 0 < (posts l).countP
              (fun p => decide (p.post_id = id)) := by
            obtain ⟨p, hp, hpid⟩ := contains_iff.mp hcl
            exact List.countP_pos.mpr ⟨p, hp, by simp [hpid]⟩
          have hzero : (posts r).countP
              (fun p => decide (p.post_id = id)) = 0 := by omega
          have hcr : Treap.contains r id = false := by
            rcases hcr : Treap.contains r id with _ | _
            · rfl
            · obtain ⟨p, hp, hpid⟩ := contains_iff.mp hcr
              have := List.countP_eq_zero.mp hzero p hp
              simp [hpid] at this
          rw [bstDel_not_found hcr]
          have hml : ∃ p ∈ preo l, p.post_id = id := by
            obtain ⟨p, hp, hpid⟩ := contains_iff.mp hcl
            exact ⟨p, mem_preo_iff.mpr hp, hpid⟩
          have hrf : removeFirst (preo (Node.node l x px r)) id
              = x :: (removeFirst (preo l) id ++ preo r) := by
            simp only [preo, removeFirst, hx, if_false]
            rw [removeFirst_append_of_mem hml]
          rw [hrf]
          have ih := bstDel_unique id l (by omega)
          simp only [posts, ← Multiset.coe_add, ← Multiset.cons_coe,
            Multiset.add_cons, Multiset.cons_add, ← Multiset.singleton_add,
            ih, preoM_eq_postsM]
          abel
        · have hcl' : Treap.contains l id = false := by
            simpa using hcl
          rw [bstDel_not_found hcl']
          have hnl : ∀ p ∈ preo l, ¬p.post_id = id := by
            intro p hp hpid
            exact absurd (contains_iff.mpr ⟨p, mem_preo_iff.mp hp, hpid⟩)
              (by simp [hcl'])
          have hrf : removeFirst (preo (Node.node l x px r)) id
              = x :: (preo l ++ removeFirst (preo r) id) := by
            simp only [preo, removeFirst, hx, if_false]
            rw [removeFirst_append_of_not_mem hnl]
          rw [hrf]
          have ih := bstDel_unique id r (by omega)
          simp only [posts, ← Multiset.coe_add, ← Multiset.cons_coe,
            Multiset.add_cons, Multiset.cons_add, ← Multiset.singleton_add,
            ih, preoM_eq_postsM]
          abel

/-- The weak BST order invariant forces the in-order timestamps to be
pairwise non-decreasing. -/
theorem WBST_pairwise : ∀ {t : Node}, WBST t →
    (posts t).Pairwise (fun a b => a.timestamp ≤ b.timestamp)
  | Node.leaf, _ => List.Pairwise.nil
  | Node.node l x px r, h => by
      obtain ⟨hlx, hrx, Wl, Wr⟩ := WBST_node.mp h
      simp only [posts]
      rw [List.pairwise_append]
      refine ⟨WBST_pairwise Wl, ?_, ?_⟩
      · rw [List.pairwise_cons]
        exact ⟨fun q hq => hrx q hq, WBST_pairwise Wr⟩
      · intro a ha b hb
        rcases List.mem_cons.mp hb with rfl | hb
        · exact hlx a ha
        · exact le_trans (hlx a ha) (hrx b hb)

theorem foldr_max_append (a b : List Nat) :
    (a ++ b).foldr max 0 = max (a.foldr max 0) (b.foldr max 0) := by
  induction a with
  | nil => simp
  | cons h t ih => simp [ih, Nat.max_assoc]

theorem foldr_max_map_succ : ∀ (ns : List Nat), ns ≠ [] →
    ((ns.map (· + 1)).foldr max 0) = ns.foldr max 0 + 1
  | [], h => absurd rfl h
  | [a], _ => by simp
  | a :: b :: t, _ => by
      have ih := foldr_max_map_succ (b :: t) (by simp)
      simp only [List.map_cons, List.foldr_cons] at ih ⊢
      rw [ih]
      omega

theorem rootToLeafPaths_ne_nil : ∀ t : Node, rootToLeafPaths t ≠ []
  | Node.leaf => by simp [rootToLeafPaths]
  | Node.node l x px r => by
      simp only [rootToLeafPaths]
      intro h
      rcases List.append_eq_nil.mp h with ⟨h1, _⟩
      exact rootToLeafPaths_ne_nil l (List.map_eq_nil.mp h1)

/-- The node count of the modelled metrics pass equals the length of an
independent in-order traversal. -/
theorem gsm_count : ∀ t : Node,
    (get_structural_metrics t).2.2 = (posts t).length
  | Node.leaf => rfl
  | Node.node l x px r => by
      simp only [get_structural_metrics, posts, List.length_append,
        List.length_cons, gsm_count l, gsm_count r]
      omega

/-- The height of the modelled metrics pass is the length (in nodes) of the
longest root-to-leaf path. -/
theorem gsm_height : ∀ t : Node,
    (get_structural_metrics t).1
      = ((rootToLeafPaths t).map List.length).foldr max 0
  | Node.leaf => rfl
  | Node.node l x px r => by
      have ihl := gsm_height l
      have ihr := gsm_height r
      simp only [get_structural_metrics, rootToLeafPaths, List.map_append,
        List.map_map]
      rw [foldr_max_append]
      have hcomp : ∀ t' : Node, (rootToLeafPaths t').map
            (List.length ∘ (fun ps => x :: ps))
          = ((rootToLeafPaths t').map List.length).map (· + 1) := by
        intro t'
        simp [Function.comp]
      rw [hcomp l, hcomp r,
        foldr_max_map_succ _ (by
          simp only [ne_eq, List.map_eq_nil]
          exact rootToLeafPaths_ne_nil l),
        foldr_max_map_succ _ (by
          simp only [ne_eq, List.map_eq_nil]
          exact rootToLeafPaths_ne_nil r),
        ihl, ihr]
      omega

/-- Every operation sequence from the empty treap keeps Heap and P1. -/
theorem foldl_applyOp_inv : ∀ (ops : List Op) (t : Node),
    Heap t ∧ P1 t →
    Heap (List.foldl applyOp t ops) ∧ P1 (List.foldl applyOp t ops)
  | [], t, h => h
  | op :: ops, t, h => by
      apply foldl_applyOp_inv ops
      cases op with
      | add id ts sc => exact ⟨ins_heap _ t h.1, ins_P1 _ t h.2⟩
      | like id => exact ⟨(like_heap id t h.1).1, like_P1 id t h.2⟩
      | del id => exact ⟨del_heap t id h.1, del_P1 t id h.2⟩

theorem runOps_inv (ops : List Op) : Heap (runOps ops) ∧ P1 (runOps ops) :=
  foldl_applyOp_inv ops Node.leaf ⟨trivial, trivial⟩

/-- Under Heap and P1, a priority bound on the root bounds all scores. -/
theorem score_le_of_heap_p1 : ∀ {t : Node} {b : Int}, Heap t → P1 t →
    rootPrioLE t b → ∀ q ∈ posts t, q.score ≤ b
  | Node.leaf, _, _, _, _, q, hq => by simp [posts] at hq
  | Node.node l x px r, b, hH, hP, hb, q, hq => by
      obtain ⟨hl, hr, Hl, Hr⟩ := Heap_node.mp hH
      obtain ⟨hx, Pl, Pr⟩ := P1_node.mp hP
      simp only [rootPrioLE_node] at hb
      simp only [posts, List.mem_append, List.mem_cons] at hq
      rcases hq with hq | rfl | hq
      · have := score_le_of_heap_p1 Hl Pl hl q hq
        omega
      · omega
      · have := score_le_of_heap_p1 Hr Pr hr q hq
        omega

/-- C1: after any sequence of `addPost`, `likePost` and `deletePost` on an
initially empty treap, `getMostPopular` returns the root's record, that
record's score is the maximum score among all stored records, and the
result is absent exactly when the tree is empty. -/
theorem C1_mostPopular_root_max (ops : List Op) :
    (Treap.getMostPopular (runOps ops) = none ↔ runOps ops = Node.leaf) ∧
    ∀ p, Treap.getMostPopular (runOps ops) = some p →
      (∃ l px r, runOps ops = Node.node l p px r) ∧
      p ∈ posts (runOps ops) ∧
      ∀ q ∈ posts (runOps ops), q.score ≤ p.score := by
  obtain ⟨hH, hP⟩ := runOps_inv ops
  rcases ht : runOps ops with _ | ⟨l, x, px, r⟩
  · exact ⟨by simp [Treap.getMostPopular], by simp [Treap.getMostPopular]⟩
  · rw [ht] at hH hP
    constructor
    · simp [Treap.getMostPopular]
    · intro p hp
      simp only [Treap.getMostPopular, Option.some.injEq] at hp
      subst hp
      refine ⟨⟨l, px, r, rfl⟩, by simp [posts], ?_⟩
      have hx := (P1_node.mp hP).1
      intro q hq
      have := score_le_of_heap_p1 hH hP
        (by simp only [rootPrioLE_node]; omega : rootPrioLE
          (Node.node l x px r) px) q hq
      omega

/-- Witness for C1 at a concrete operation sequence. -/
theorem C1_mostPopular_root_max_witness :
    (∃ l px r, runOps [Op.add "a" 100 55, Op.add "b" 100 12, Op.like "b"]
        = Node.node l (⟨"a", 100, 55⟩ : Post) px r) ∧
    (⟨"a", 100, 55⟩ : Post)
      ∈ posts (runOps [Op.add "a" 100 55, Op.add "b" 100 12, Op.like "b"]) ∧
    ∀ q ∈ posts (runOps [Op.add "a" 100 55, Op.add "b" 100 12, Op.like "b"]),
      q.score ≤ (⟨"a", 100, 55⟩ : Post).score :=
  (C1_mostPopular_root_max
    [Op.add "a" 100 55, Op.add "b" 100 12, Op.like "b"]).2
    ⟨"a", 100, 55⟩ (by decide)

/-- C2: after each completed treap operation — `addPost`, `likePost`,
`deletePost` and `union` — every node satisfies the max-heap invariant
(its priority is at least each existing child's) and P1 (its priority
equals its record's score). -/
theorem C2_heap_P1_invariants (T U : Treap) (id : String) (ts sc : Int) :
    (Heap T.root ∧ P1 T.root →
      (Heap (T.addPost id ts sc).root ∧ P1 (T.addPost id ts sc).root) ∧
      (Heap (T.likePost id).1.root ∧ P1 (T.likePost id).1.root) ∧
      (Heap (T.deletePost id).1.root ∧ P1 (T.deletePost id).1.root)) ∧
    (Heap T.root ∧ P1 T.root → Heap U.root ∧ P1 U.root →
      Heap (T.union U).root ∧ P1 (T.union U).root) := by
  constructor
  · rintro ⟨hH, hP⟩
    refine ⟨⟨ins_heap _ _ hH, ins_P1 _ _ hP⟩,
      ⟨(like_heap id T.root hH).1, like_P1 id T.root hP⟩,
      ⟨del_heap T.root id hH, del_P1 T.root id hP⟩⟩
  · rintro ⟨hH, hP⟩ ⟨hH', hP'⟩
    by_cases h : U.root = Node.leaf
    · simp only [Treap.union, h, if_true]
      exact ⟨hH, hP⟩
    · simp only [Treap.union, h, if_false]
      exact ⟨union_Heap T.root U.root hH hH', union_P1 T.root U.root hP hP'⟩

/-- Witness for C2 at concrete treaps. -/
theorem C2_heap_P1_invariants_witness :
    ((Heap ((Treap.empty.addPost "a" 1 5).addPost "b" 2 9 : Treap).root ∧
      P1 ((Treap.empty.addPost "a" 1 5).addPost "b" 2 9 : Treap).root) ∧
     (Heap ((Treap.empty.addPost "a" 1 5).likePost "a").1.root ∧
      P1 ((Treap.empty.addPost "a" 1 5).likePost "a").1.root) ∧
     (Heap ((Treap.empty.addPost "a" 1 5).deletePost "a").1.root ∧
      P1 ((Treap.empty.addPost "a" 1 5).deletePost "a").1.root)) ∧
    (Heap ((Treap.empty.addPost "a" 1 5).union
        (Treap.empty.addPost "c" 3 7)).root ∧
     P1 ((Treap.empty.addPost "a" 1 5).union
        (Treap.empty.addPost "c" 3 7)).root) :=
  ⟨(C2_heap_P1_invariants (Treap.empty.addPost "a" 1 5)
      (Treap.empty.addPost "c" 3 7) "a" 2 9).1 ⟨by decide, by decide⟩,
   (C2_heap_P1_invariants (Treap.empty.addPost "a" 1 5)
      (Treap.empty.addPost "c" 3 7) "a" 2 9).2 ⟨by decide, by decide⟩
      ⟨by decide, by decide⟩⟩

/-- C3 counterexample: inserting a second record with an equal timestamp and
a higher score into a valid one-node treap rotates it to the root and leaves
the equal-timestamp record in the *left* subtree, so the strict
"ties to the right" BST invariant is violated by `addPost` itself. -/
theorem C3_strict_order_counterexample :
    SBST (Treap.ins Node.leaf ⟨"p", 5, 1⟩) ∧
    Heap (Treap.ins Node.leaf ⟨"p", 5, 1⟩) ∧
    P1 (Treap.ins Node.leaf ⟨"p", 5, 1⟩) ∧
    ¬SBST (Treap.ins (Treap.ins Node.leaf ⟨"p", 5, 1⟩) ⟨"q", 5, 9⟩) ∧
    WBST (Treap.ins (Treap.ins Node.leaf ⟨"p", 5, 1⟩) ⟨"q", 5, 9⟩) := by
  decide

/-- C3 (amended): the BST's insert, update and delete preserve the strict
order invariant (left strictly below, ties to the right); every Treap
operation (insert, update, delete, split, union) and every BST operation
preserves the weak order invariant (left at or below the node, right at or
above), because treap rotations and `union` may move an equal-timestamp
record into a left subtree; the weak invariant already makes every in-order
traversal non-decreasing in timestamp. -/
theorem C3_order_invariants (t t1 t2 : Node) (p : Post) (id : String)
    (k : Int) :
    (SBST t → SBST (BST.insT t p) ∧ SBST ((BST.likeT t id).1) ∧
      SBST (BST.delete_recursive t id) ∧
      SBST (Treap.split t k).1 ∧ SBST (Treap.split t k).2.1) ∧
    (WBST t → WBST (Treap.ins t p) ∧ WBST (Treap.lk t id) ∧
      WBST (Treap.del t id) ∧
      WBST (Treap.split t k).1 ∧ WBST (Treap.split t k).2.1 ∧
      WBST (BST.insT t p) ∧ WBST ((BST.likeT t id).1) ∧
      WBST (BST.delete_recursive t id)) ∧
    (WBST t1 → WBST t2 → WBST (Treap.unionT t1 t2)) ∧
    (WBST t →
      (posts t).Pairwise (fun a b => a.timestamp ≤ b.timestamp)) := by
  refine ⟨?_, ?_, ?_, ?_⟩
  · intro hS
    exact ⟨bstIns_SBST p t hS, bstLike_SBST id t hS, bstDel_SBST hS,
      (split_SBST hS).1, (split_SBST hS).2⟩
  · intro hW
    exact ⟨ins_WBST p t hW, like_WBST id t hW, del_WBST t id hW,
      (split_WBST hW).1, (split_WBST hW).2,
      bstIns_WBST p t hW, bstLike_WBST id t hW, bstDel_WBST hW⟩
  · exact union_WBST t1 t2
  · exact WBST_pairwise

/-- Witness for the amended C3 at concrete trees. -/
theorem C3_order_invariants_witness :
    (SBST (BST.insT (mkNode ⟨"a", 10, 3⟩) ⟨"b", 4, 7⟩) ∧
     SBST ((BST.likeT (mkNode ⟨"a", 10, 3⟩) "a").1) ∧
     SBST (BST.delete_recursive (mkNode ⟨"a", 10, 3⟩) "a") ∧
     SBST (Treap.split (mkNode ⟨"a", 10, 3⟩) 7).1 ∧
     SBST (Treap.split (mkNode ⟨"a", 10, 3⟩) 7).2.1) ∧
    (WBST (Treap.ins (mkNode ⟨"a", 10, 3⟩) ⟨"b", 4, 7⟩) ∧
     WBST (Treap.lk (mkNode ⟨"a", 10, 3⟩) "a") ∧
     WBST (Treap.del (mkNode ⟨"a", 10, 3⟩) "a") ∧
     WBST (Treap.split (mkNode ⟨"a", 10, 3⟩) 7).1 ∧
     WBST (Treap.split (mkNode ⟨"a", 10, 3⟩) 7).2.1 ∧
     WBST (BST.insT (mkNode ⟨"a", 10, 3⟩) ⟨"b", 4, 7⟩) ∧
     WBST ((BST.likeT (mkNode ⟨"a", 10, 3⟩) "a").1) ∧
     WBST (BST.delete_recursive (mkNode ⟨"a", 10, 3⟩) "a")) ∧
    WBST (Treap.unionT (mkNode ⟨"a", 10, 3⟩) (mkNode ⟨"b", 4, 7⟩)) ∧
    (posts (mkNode ⟨"a", 10, 3⟩)).Pairwise
      (fun a b => a.timestamp ≤ b.timestamp) :=
  ⟨(C3_order_invariants (mkNode ⟨"a", 10, 3⟩) (mkNode ⟨"a", 10, 3⟩)
      (mkNode ⟨"b", 4, 7⟩) ⟨"b", 4, 7⟩ "a" 7).1 (by decide),
   (C3_order_invariants (mkNode ⟨"a", 10, 3⟩) (mkNode ⟨"a", 10, 3⟩)
      (mkNode ⟨"b", 4, 7⟩) ⟨"b", 4, 7⟩ "a" 7).2.1 (by decide),
   (C3_order_invariants (mkNode ⟨"a", 10, 3⟩) (mkNode ⟨"a", 10, 3⟩)
      (mkNode ⟨"b", 4, 7⟩) ⟨"b", 4, 7⟩ "a" 7).2.2.1 (by decide) (by decide),
   (C3_order_invariants (mkNode ⟨"a", 10, 3⟩) (mkNode ⟨"a", 10, 3⟩)
      (mkNode ⟨"b", 4, 7⟩) ⟨"b", 4, 7⟩ "a" 7).2.2.2 (by decide)⟩

/-- C4: on a treap satisfying the strict BST order invariant and the heap
invariant, `split(root, k)` yields a left part holding exactly the records
with timestamp `≤ k` and a right part holding exactly those with
timestamp `> k`, both parts satisfy the BST order and heap invariants, and
the operation performs no rotation (its rotation delta is zero). -/
theorem C4_split_spec (t : Node) (k : Int) (hS : SBST t) (hH : Heap t) :
    posts (Treap.split t k).1
        = (posts t).filter (fun p => p.timestamp ≤ k) ∧
    posts (Treap.split t k).2.1
        = (posts t).filter (fun p => k < p.timestamp) ∧
    SBST (Treap.split t k).1 ∧ SBST (Treap.split t k).2.1 ∧
    Heap (Treap.split t k).1 ∧ Heap (Treap.split t k).2.1 ∧
    (Treap.split t k).2.2 = 0 :=
  ⟨(split_posts_filter (SBST.toWBST hS)).1,
   (split_posts_filter (SBST.toWBST hS)).2,
   (split_SBST hS).1, (split_SBST hS).2,
   (split_Heap hH).1, (split_Heap hH).2,
   split_rot_zero t k⟩

/-- Witness for C4 at a concrete treap. -/
theorem C4_split_spec_witness :
    posts (Treap.split (Node.node (mkNode ⟨"a", 1, 2⟩) ⟨"b", 5, 9⟩ 9
          (mkNode ⟨"c", 8, 4⟩)) 5).1
        = (posts (Node.node (mkNode ⟨"a", 1, 2⟩) ⟨"b", 5, 9⟩ 9
          (mkNode ⟨"c", 8, 4⟩))).filter (fun p => p.timestamp ≤ 5) ∧
    posts (Treap.split (Node.node (mkNode ⟨"a", 1, 2⟩) ⟨"b", 5, 9⟩ 9
          (mkNode ⟨"c", 8, 4⟩)) 5).2.1
        = (posts (Node.node (mkNode ⟨"a", 1, 2⟩) ⟨"b", 5, 9⟩ 9
          (mkNode ⟨"c", 8, 4⟩))).filter (fun p => 5 < p.timestamp) ∧
    SBST (Treap.split (Node.node (mkNode ⟨"a", 1, 2⟩) ⟨"b", 5, 9⟩ 9
          (mkNode ⟨"c", 8, 4⟩)) 5).1 ∧
    SBST (Treap.split (Node.node (mkNode ⟨"a", 1, 2⟩) ⟨"b", 5, 9⟩ 9
          (mkNode ⟨"c", 8, 4⟩)) 5).2.1 ∧
    Heap (Treap.split (Node.node (mkNode ⟨"a", 1, 2⟩) ⟨"b", 5, 9⟩ 9
          (mkNode ⟨"c", 8, 4⟩)) 5).1 ∧
    Heap (Treap.split (Node.node (mkNode ⟨"a", 1, 2⟩) ⟨"b", 5, 9⟩ 9
          (mkNode ⟨"c", 8, 4⟩)) 5).2.1 ∧
    (Treap.split (Node.node (mkNode ⟨"a", 1, 2⟩) ⟨"b", 5, 9⟩ 9
          (mkNode ⟨"c", 8, 4⟩)) 5).2.2 = 0 :=
  C4_split_spec (Node.node (mkNode ⟨"a", 1, 2⟩) ⟨"b", 5, 9⟩ 9
    (mkNode ⟨"c", 8, 4⟩)) 5 (by decide) (by decide)

/-- C5: splitting any treap at any key and unioning the two halves — in
either argument order — reconstructs exactly the original multiset of
records. -/
theorem C5_split_union_roundtrip (t : Node) (k : Int) :
    (↑(posts (Treap.unionT (Treap.split t k).1 (Treap.split t k).2.1)) :
        Multiset Post) = ↑(posts t) ∧
    (↑(posts (Treap.unionT (Treap.split t k).2.1 (Treap.split t k).1)) :
        Multiset Post) = ↑(posts t) := by
  constructor
  · rw [union_posts, split_posts_perm]
  · rw [union_posts, add_comm, split_posts_perm]

/-- C6 counterexample: `deletePost` never returns a found/not-found boolean.
In both classes the Python method has no `return` statement, so even when
the id is present (and certainly when it is absent) the call returns
`None` — embedded here as `none`, with the genuinely absent id leaving the
tree unchanged but still not reporting `false`. -/
theorem C6_deletePost_no_boolean_counterexample :
    Treap.contains (mkNode ⟨"a", 1, 1⟩) "a" = true ∧
    (Treap.deletePost ⟨mkNode ⟨"a", 1, 1⟩, 0, 0⟩ "a").2 = none ∧
    (Treap.deletePost ⟨mkNode ⟨"a", 1, 1⟩, 0, 0⟩ "z").2 = none ∧
    (BSTree.deletePost ⟨mkNode ⟨"a", 1, 1⟩, 0⟩ "a").2 = none ∧
    (BSTree.deletePost ⟨mkNode ⟨"a", 1, 1⟩, 0⟩ "z").2 = none :=
  ⟨rfl, rfl, rfl, rfl, rfl⟩

/-- C6 (amended): for both BST and Treap, calling `likePost` or `deletePost`
with an id not present in the tree leaves the tree (root and both counters)
unchanged and never raises an error; `likePost` reports the miss by
returning `false`, while `deletePost` returns Python's `None` rather than a
boolean. -/
theorem C6_not_found_noop (T : Treap) (B : BSTree) (id : String)
    (hT : Treap.contains T.root id = false)
    (hB : Treap.contains B.root id = false) :
    Treap.likePost T id = (T, false) ∧
    Treap.deletePost T id = (T, none) ∧
    BSTree.likePost B id = (B, false) ∧
    BSTree.deletePost B id = (B, none) := by
  have hf : (Treap.like_recursive T.root id).2.1 = false := by
    have := lkFound_eq_contains T.root id
    rw [Treap.lkFound] at this
    rw [this, hT]
  obtain ⟨hroot, hrot⟩ := like_not_found hf
  have hdel := del_not_found T.root id hT
  have hbf : (BST.likeT B.root id).2 = false := by
    rw [bstLike_found_eq_contains, hB]
  have hbroot := bstLike_not_found hbf
  have hbdel := bstDel_not_found hB
  cases T with
  | mk rt rc cc =>
      cases B with
      | mk brt bcc =>
          refine ⟨?_, ?_, ?_, ?_⟩
          · simp [Treap.likePost, hf, hroot, hrot]
          · simp [Treap.deletePost, hdel]
          · simp [BSTree.likePost, hbf, hbroot]
          · simp [BSTree.deletePost, hbdel]

/-- Witness for the amended C6 on concrete one-node trees and an absent
id. -/
theorem C6_not_found_noop_witness :
    Treap.contains (⟨mkNode ⟨"a", 1, 1⟩, 0, 0⟩ : Treap).root "z" = false ∧
    Treap.contains (⟨mkNode ⟨"a", 1, 1⟩, 0⟩ : BSTree).root "z" = false ∧
    (Treap.likePost ⟨mkNode ⟨"a", 1, 1⟩, 0, 0⟩ "z"
        = (⟨mkNode ⟨"a", 1, 1⟩, 0, 0⟩, false) ∧
      Treap.deletePost ⟨mkNode ⟨"a", 1, 1⟩, 0, 0⟩ "z"
        = (⟨mkNode ⟨"a", 1, 1⟩, 0, 0⟩, none) ∧
      BSTree.likePost ⟨mkNode ⟨"a", 1, 1⟩, 0⟩ "z"
        = (⟨mkNode ⟨"a", 1, 1⟩, 0⟩, false) ∧
      BSTree.deletePost ⟨mkNode ⟨"a", 1, 1⟩, 0⟩ "z"
        = (⟨mkNode ⟨"a", 1, 1⟩, 0⟩, none)) :=
  ⟨by decide, by decide,
   C6_not_found_noop ⟨mkNode ⟨"a", 1, 1⟩, 0, 0⟩ ⟨mkNode ⟨"a", 1, 1⟩, 0⟩ "z"
     (by decide) (by decide)⟩

/-- C7 counterexample: with two records sharing id `"x"` (timestamps 5 and
20 under root `"r"`), the BST's `_delete_recursive` recurses into *both*
children whenever the current node is not a match, so a single
`deletePost("x")` removes *both* duplicates, not just the first one found. -/
theorem C7_bst_delete_removes_duplicates_counterexample :
    (posts (BST.insT (BST.insT (BST.insT Node.leaf ⟨"r", 10, 5⟩)
        ⟨"x", 5, 1⟩) ⟨"x", 20, 2⟩)).countP
      (fun p => decide (p.post_id = "x")) = 2 ∧
    posts (BST.delete_recursive
        (BST.insT (BST.insT (BST.insT Node.leaf ⟨"r", 10, 5⟩)
          ⟨"x", 5, 1⟩) ⟨"x", 20, 2⟩) "x")
      = [⟨"r", 10, 5⟩] := by
  decide

/-- C7 (amended): the Treap's update and delete, and the BST's update, do
affect exactly the first node found in the implementation's pre-order
search (node, then left, then right): the stored multiset afterwards is the
pre-order listing with the first id match's score bumped (update) or
removed (delete), all other duplicates untouched.  The BST's delete only
behaves this way when at most one stored record carries the id; with
duplicates it can remove several (see the counterexample). -/
theorem C7_first_match_semantics (t : Node) (id : String) :
    (↑(posts (Treap.lk t id)) : Multiset Post) = ↑(bump1 (preo t) id) ∧
    (↑(posts (Treap.del t id)) : Multiset Post)
      = ↑(removeFirst (preo t) id) ∧
    (↑(posts ((BST.likeT t id).1)) : Multiset Post)
      = ↑(bump1 (preo t) id) ∧
    ((posts t).countP (fun p => decide (p.post_id = id)) ≤ 1 →
      (↑(posts (BST.delete_recursive t id)) : Multiset Post)
        = ↑(removeFirst (preo t) id)) :=
  ⟨posts_like_perm t id, del_posts t id, posts_bstLike_perm t id,
   bstDel_unique id t⟩

/-- Witness for the amended C7 on a duplicate-free concrete tree. -/
theorem C7_first_match_semantics_witness :
    (posts (BST.insT (BST.insT Node.leaf ⟨"r", 10, 5⟩)
        ⟨"x", 5, 1⟩)).countP (fun p => decide (p.post_id = "x")) ≤ 1 ∧
    (↑(posts (BST.delete_recursive
        (BST.insT (BST.insT Node.leaf ⟨"r", 10, 5⟩) ⟨"x", 5, 1⟩) "x"))
      : Multiset Post)
      = ↑(removeFirst (preo (BST.insT (BST.insT Node.leaf ⟨"r", 10, 5⟩)
          ⟨"x", 5, 1⟩)) "x") :=
  ⟨by decide,
   (C7_first_match_semantics
       (BST.insT (BST.insT Node.leaf ⟨"r", 10, 5⟩) ⟨"x", 5, 1⟩)
       "x").2.2.2 (by decide)⟩

/-- C8 counterexample: `Treap.union` folds only the donor's rotation
counter into the receiver; the donor's comparison counter is discarded
(`comparisons` is copied unchanged from the receiver).  Here the donor has
performed one comparison while building, yet the merged treap reports
zero. -/
theorem C8_union_comparisons_counterexample :
    (Treap.addPost (Treap.addPost Treap.empty "a" 1 1)
        "b" 2 1).comparisons = 1 ∧
    (Treap.addPost Treap.empty "c" 3 1).comparisons = 0 ∧
    (Treap.union (Treap.addPost Treap.empty "c" 3 1)
        (Treap.addPost (Treap.addPost Treap.empty "a" 1 1)
          "b" 2 1)).comparisons = 0 ∧
    (Treap.union (Treap.addPost Treap.empty "c" 3 1)
          (Treap.addPost (Treap.addPost Treap.empty "a" 1 1)
            "b" 2 1)).comparisons
      ≠ (Treap.addPost Treap.empty "c" 3 1).comparisons
        + (Treap.addPost (Treap.addPost Treap.empty "a" 1 1)
            "b" 2 1).comparisons := by
  refine ⟨by decide, by decide, rfl, ?_⟩
  intro h
  rw [show (Treap.union (Treap.addPost Treap.empty "c" 3 1)
      (Treap.addPost (Treap.addPost Treap.empty "a" 1 1)
        "b" 2 1)).comparisons = 0 from rfl] at h
  revert h
  decide

/-- C8 (amended): when the donor treap is non-empty, `union` folds the
donor's *rotation* counter additively into the receiver's (the merge itself
performs no rotation, so the result is exactly the sum), while the
receiver's *comparison* counter is left unchanged — the donor's comparisons
are discarded; the merged root stores the records of both trees.  (With an
empty donor, `union` returns the receiver untouched.) -/
theorem C8_union_counters (a b : Treap) (h : b.root ≠ Node.leaf) :
    (Treap.union a b).rotations_count
      = a.rotations_count + b.rotations_count ∧
    (Treap.union a b).comparisons = a.comparisons ∧
    (↑(posts (Treap.union a b).root) : Multiset Post)
      = ↑(posts a.root) + ↑(posts b.root) := by
  have hz := union_rot_zero a.root b.root
  have hp := union_posts a.root b.root
  refine ⟨?_, ?_, ?_⟩
  · simp [Treap.union, h, hz]
  · simp [Treap.union, h]
  · simpa [Treap.union, h, Treap.unionT] using hp

/-- Witness for the amended C8 with a concrete non-empty donor. -/
theorem C8_union_counters_witness :
    (Treap.addPost (Treap.addPost Treap.empty "a" 1 1)
        "b" 2 1).root ≠ Node.leaf ∧
    ((Treap.union (Treap.addPost Treap.empty "c" 3 1)
        (Treap.addPost (Treap.addPost Treap.empty "a" 1 1)
          "b" 2 1)).rotations_count
      = (Treap.addPost Treap.empty "c" 3 1).rotations_count
        + (Treap.addPost (Treap.addPost Treap.empty "a" 1 1)
            "b" 2 1).rotations_count ∧
     (Treap.union (Treap.addPost Treap.empty "c" 3 1)
        (Treap.addPost (Treap.addPost Treap.empty "a" 1 1)
          "b" 2 1)).comparisons
      = (Treap.addPost Treap.empty "c" 3 1).comparisons ∧
     (↑(posts (Treap.union (Treap.addPost Treap.empty "c" 3 1)
          (Treap.addPost (Treap.addPost Treap.empty "a" 1 1)
            "b" 2 1)).root) : Multiset Post)
      = ↑(posts (Treap.addPost Treap.empty "c" 3 1).root)
        + ↑(posts (Treap.addPost (Treap.addPost Treap.empty "a" 1 1)
            "b" 2 1).root)) :=
  ⟨by decide,
   C8_union_counters (Treap.addPost Treap.empty "c" 3 1)
     (Treap.addPost (Treap.addPost Treap.empty "a" 1 1) "b" 2 1)
     (by decide)⟩

/-- C9: the spec's end-to-end scenario requires `mostRecent(1)` to return
the record `"e"` (timestamp 109, score 15 after two likes), but the Treap
class defines no `mostRecent`/`getMostRecent` method at all — calling it
raises `AttributeError`.  The intended value is recoverable only through
the BST's `getMostRecent` (reverse in-order, highest timestamps first)
applied to the treap root produced by the scenario's operation sequence. -/
theorem C9_mostRecent_intended_result :
    BST.getMostRecent (runOps
      [Op.add "a" 100 55, Op.add "b" 100 12, Op.add "c" 100 27,
       Op.add "d" 100 14, Op.add "e" 109 13,
       Op.like "e", Op.like "e", Op.del "b"]) 1
      = [⟨"e", 109, 15⟩] := by
  have h : runOps
      [Op.add "a" 100 55, Op.add "b" 100 12, Op.add "c" 100 27,
       Op.add "d" 100 14, Op.add "e" 109 13,
       Op.like "e", Op.like "e", Op.del "b"]
      = Node.node Node.leaf ⟨"a", 100, 55⟩ 55
          (Node.node Node.leaf ⟨"c", 100, 27⟩ 27
            (Node.node (Node.node Node.leaf ⟨"d", 100, 14⟩ 14 Node.leaf)
              ⟨"e", 109, 15⟩ 15 Node.leaf)) := by
    simp [runOps, applyOp, Treap.ins, Treap.lk, Treap.del,
      Treap.insert_recursive, Treap.like_recursive, Treap.delete_recursive,
      Treap.contains, Treap.right_rotate, Treap.left_rotate, mkNode,
      rootPrio]
  rw [h]
  decide

/-- C10: `get_structural_metrics` (spec §4.4, absent from the repository's
`utils.py`) computes for every subtree the triple
`(height, totalAbsoluteBalanceFactor, nodeCount)` in one bottom-up pass:
the empty tree yields `(0, 0, 0)`, the node count equals the number of
stored records, and the height equals the length of the longest
root-to-leaf path. -/
theorem C10_structural_metrics (t : Node) :
    get_structural_metrics Node.leaf = (0, 0, 0) ∧
    (get_structural_metrics t).2.2 = (posts t).length ∧
    (get_structural_metrics t).1
      = ((rootToLeafPaths t).map List.length).foldr max 0 :=
  ⟨rfl, gsm_count t, gsm_height t⟩
